import Mathlib

/-!
Verification of the row-reduction engine of the matrix-solver repository
(`src/utils/matrixOperations.ts`).  Matrices are embedded as dense row-major
lists of rationals; the source's floating-point numbers become exact rationals
and its tolerance comparisons (against 1e-10) are kept literally.  Steps keep
the matrix snapshot and the `operation` tag of the source's `Step` objects
(descriptions and highlighted rows are display-only strings and are omitted).
The source's `NaN` determinant for non-square inputs is embedded as an explicit
`NumVal.nan` constructor, and optional result fields become `Option`s.
-/

namespace MatrixOps

/-- The tolerance constant 1e-10 used throughout `matrixOperations.ts`. -/
def tol : ℚ := 1 / 10 ^ 10

/-- A matrix is a list of rows, as the source's `number[][]`. -/
abbrev Mat := List (List ℚ)

/-- Entry access `matrix[i][j]`; out-of-range reads default to 0 (the source
never reads out of range on the rectangular inputs the claims quantify over). -/
def entry (M : Mat) (i j : Nat) : ℚ := (M.getD i []).getD j 0

/-- `swapRows` (source lines 32-38): rows `r1` and `r2` exchanged, both read
from the original matrix as in the JS destructuring swap. -/
def swapRows (M : Mat) (r1 r2 : Nat) : Mat :=
  (M.set r1 (M.getD r2 [])).set r2 (M.getD r1 [])

/-- `multiplyRow` (source lines 43-47): row `r` multiplied entrywise by `k`. -/
def multiplyRow (M : Mat) (r : Nat) (k : ℚ) : Mat :=
  M.set r ((M.getD r []).map (fun v => v * k))

/-- The row produced by `addRows` for the target row: the source iterates `j`
over the target row's length and does `result[t][j] += k * result[s][j]`. -/
def addRowsVec (a b : List ℚ) (k : ℚ) : List ℚ :=
  (List.range a.length).map (fun j => a.getD j 0 + k * b.getD j 0)

/-- `addRows` (source lines 52-63): adds `k` times row `s` to row `t`. -/
def addRows (M : Mat) (t s : Nat) (k : ℚ) : Mat :=
  M.set t (addRowsVec (M.getD t []) (M.getD s []) k)

/-- `cleanNumber` (source lines 68-70): snaps magnitudes below the tolerance
to exactly 0. -/
def cleanNumber (q : ℚ) : ℚ := if |q| < tol then 0 else q

/-- `cleanMatrix` (source lines 74-76): `cleanNumber` applied entrywise. -/
def cleanMatrix (M : Mat) : Mat := M.map (fun row => row.map cleanNumber)

/-- The source `Step.operation` tag values `'swap' | 'multiply' | 'add'`. -/
inductive MOp
  | swap
  | multiply
  | add
  deriving DecidableEq, Repr

/-- A recorded step: the matrix snapshot and the optional operation tag.
The source's `description`/`highlightedRows` are presentation-only. -/
structure Step where
  matrix : Mat
  operation : Option MOp := none
  deriving DecidableEq, Repr, Inhabited

/-- A JS `number` result that may be `NaN` (used for the determinant field). -/
inductive NumVal
  | nan
  | val (q : ℚ)
  deriving DecidableEq, Repr

/-- The source's `SolutionResult` (optional fields become `Option`s). -/
structure SolutionResult where
  finalMatrix : Mat
  solution : Option (List ℚ) := none
  determinant : Option NumVal := none
  deriving DecidableEq, Repr

/-- Return value of the four operations: step trace plus result. -/
structure OpResult where
  steps : List Step
  result : SolutionResult
  deriving DecidableEq, Repr

/-!  ## Gaussian elimination (source lines 152-309)  -/

/-- Partial pivoting (source lines 180-188): the row in `[currentRow, n)`
whose column-`col` entry has the largest absolute value; on ties the earliest
row wins because the source only updates on a strict increase. -/
def findPivot (M : Mat) (col currentRow n : Nat) : Nat :=
  (List.range' (currentRow + 1) (n - (currentRow + 1))).foldl
    (fun p row => if |entry M p col| < |entry M row col| then row else p) currentRow

/-- Elimination below the pivot (source lines 231-251), iterating the given
row indices.  Returns the new matrix, the recorded steps (one per performed
elimination), and a ghost flag - not computed by the source - that is `true`
iff every *skipped* factor (those with `|factor| <= tol`) was exactly 0. -/
def geElimBelow (M : Mat) (currentRow col : Nat) : List Nat → Mat × List Step × Bool
  | [] => (M, [], true)
  | row :: rest =>
    let factor := entry M row col
    if tol < |factor| then
      let M2 := cleanMatrix (addRows M row currentRow (-factor))
      let res := geElimBelow M2 currentRow col rest
      (res.1, ⟨M2, some MOp.add⟩ :: res.2.1, res.2.2)
    else
      let res := geElimBelow M currentRow col rest
      (res.1, res.2.1, decide (factor = 0) && res.2.2)

/-- State threaded through the Gaussian-elimination column loop: matrix,
current row, recorded steps, and a ghost boundary-freeness flag. -/
structure GEState where
  mat : Mat
  row : Nat
  steps : List Step
  ok : Bool
  deriving DecidableEq, Repr

/-- The scale-and-eliminate part of one Gaussian-elimination column (source
lines 213-259), applied after the swap: scale the pivot row to make the pivot
1 unless it already is within tolerance of 1, then eliminate below; if no
elimination happened, a no-op note step is pushed instead (source lines
253-259).  Also returns the ghost boundary-freeness flag for the column. -/
def geColScaleElim (M1 : Mat) (currentRow col n : Nat) : Mat × List Step × Bool :=
  let pivot := entry M1 currentRow col
  let doScale := tol < |pivot - 1|
  let M2 := if doScale then cleanMatrix (multiplyRow M1 currentRow (1 / pivot)) else M1
  let s2 : List Step := if doScale then [⟨M2, some MOp.multiply⟩] else []
  let e := geElimBelow M2 currentRow col (List.range' (currentRow + 1) (n - (currentRow + 1)))
  let s3 := if e.2.1 = [] then [(⟨e.1, none⟩ : Step)] else e.2.1
  let okc := (decide (tol < |pivot - 1|) || decide (pivot = 1)) && e.2.2
  (e.1, s2 ++ s3, okc)

/-- One iteration of the column loop of `gaussianElimination` (source lines
169-262). -/
def geColStep (M : Mat) (currentRow col n : Nat) : GEState :=
  let pivotRow := findPivot M col currentRow n
  if |entry M pivotRow col| < tol then
    ⟨M, currentRow, [⟨M, none⟩, ⟨M, none⟩], true⟩
  else
    let doSwap := pivotRow ≠ currentRow
    let M1 := if doSwap then swapRows M currentRow pivotRow else M
    let s1 : List Step := if doSwap then [⟨M1, some MOp.swap⟩] else []
    let b := geColScaleElim M1 currentRow col n
    ⟨b.1, currentRow + 1, ⟨M, none⟩ :: s1 ++ b.2.1, b.2.2⟩

/-- The column loop of `gaussianElimination` over the listed column indices
(the source iterates `col` from 0 to `min n (m-1) - 1`, breaking once
`currentRow >= n`). -/
def geLoop (n : Nat) (M : Mat) (currentRow : Nat) : List Nat → GEState
  | [] => ⟨M, currentRow, [], true⟩
  | col :: rest =>
    if n ≤ currentRow then ⟨M, currentRow, [], true⟩
    else
      let c := geColStep M currentRow col n
      let r := geLoop n c.mat c.row rest
      ⟨r.mat, r.row, c.steps ++ r.steps, c.ok && r.ok⟩

/-- The forward-elimination phase of `gaussianElimination` on the cleaned
input, exposing the loop state (final matrix, final current row, loop steps,
ghost flag). -/
def geRun (input : Mat) : GEState :=
  let matrix := cleanMatrix input
  geLoop matrix.length matrix 0
    (List.range (min matrix.length (((matrix.getD 0 []).length) - 1)))

/-- Ghost flag: the Gaussian-elimination run hit no tolerance-boundary corner
(see `geColStep`).  Not part of the source; used to state hypotheses. -/
def geBoundaryFree (input : Mat) : Bool := (geRun input).ok

/-- Back substitution (source lines 281-299).  The counter `i+1` processes row
`i`; the solved values are prepended (the source's `unshift`), and - exactly as
the source does - the contribution of column `j` is read at index `n-1-j` of
the partial solution list.  Division is exact rational division (the source
divides JS floats; no claim instance divides by zero). -/
def backSubstAux (M : Mat) (n m : Nat) : Nat → List ℚ → List ℚ × List Step
  | 0, sol => (sol, [])
  | i + 1, sol =>
    let sum := entry M i (m - 1) -
      (((List.range' (i + 1) (n - (i + 1))).map
        (fun j => entry M i j * sol.getD (n - 1 - j) 0)).sum)
    let value := cleanNumber (sum / entry M i i)
    let res := backSubstAux M n m i (value :: sol)
    (res.1, (⟨M, none⟩ : Step) :: res.2)

/-- `gaussianElimination` (source lines 152-309): forward elimination to row
echelon form, then back substitution when the input is an augmented `n x (n+1)`
system. -/
def gaussianElimination (input : Mat) : OpResult :=
  let matrix := cleanMatrix input
  let n := matrix.length
  let m := (matrix.getD 0 []).length
  let lp := geRun input
  let final := lp.mat
  let base : List Step := ⟨matrix, none⟩ :: lp.steps ++ [⟨final, none⟩]
  if m = n + 1 then
    let bs := backSubstAux final n m n []
    { steps := base ++ [⟨final, none⟩] ++ bs.2,
      result := { finalMatrix := final,
                  solution := if bs.1.length ≠ 0 then some bs.1 else none } }
  else
    { steps := base, result := { finalMatrix := final } }

/-!  ## Gauss-Jordan elimination (source lines 338-467)  -/

/-- The pivot search of `gaussJordan` (source lines 366-377): scan the listed
lead columns left to right; for each, scan rows `currentRow..n-1` top-down for
the first entry of magnitude at least the tolerance.  Returns the pivot row
and the lead column, or `none` when the columns are exhausted (the source then
breaks out of the row loop). -/
def gjFindPivot (M : Mat) (n currentRow : Nat) : List Nat → Option (Nat × Nat)
  | [] => none
  | lead :: rest =>
    match (List.range' currentRow (n - currentRow)).find?
        (fun r => decide (tol ≤ |entry M r lead|)) with
    | some r => some (r, lead)
    | none => gjFindPivot M n currentRow rest

/-- State threaded through the Gauss-Jordan row loop: matrix, recorded steps,
and a ghost flag - not computed by the source - that is `true` iff every
`cleanMatrix` application so far changed nothing (lossless cleanup). -/
structure GJState where
  mat : Mat
  steps : List Step
  ok : Bool
  deriving DecidableEq, Repr

/-- Elimination in every row other than the pivot row (source lines 411-433),
iterating the given row indices. -/
def gjElim (M : Mat) (row lead : Nat) : List Nat → GJState
  | [] => ⟨M, [], true⟩
  | i :: rest =>
    if i = row then gjElim M row lead rest
    else
      let factor := entry M i lead
      if tol < |factor| then
        let M1 := addRows M i row (-factor)
        let M2 := cleanMatrix M1
        let res := gjElim M2 row lead rest
        ⟨res.mat, ⟨M2, some MOp.add⟩ :: res.steps, decide (M2 = M1) && res.ok⟩
      else
        gjElim M row lead rest

/-- The body of one `gaussJordan` row iteration after a pivot has been found
at `(r, l)` (source lines 379-433): swap the pivot row up if needed, scale it
to make the pivot 1 unless the pivot is within tolerance of 1, and eliminate
the lead column in all other rows.  Returns the new matrix, the new lead
value, the steps, and the lossless-cleanup ghost flag. -/
def gjRowBody (M : Mat) (n row : Nat) (r l : Nat) : Mat × Nat × List Step × Bool :=
  let doSwap := r ≠ row
  let M1 := if doSwap then swapRows M row r else M
  let s1 : List Step := if doSwap then [⟨M1, some MOp.swap⟩] else []
  let pivot := entry M1 row l
  let doScale := decide (tol < |pivot|) && decide (tol < |pivot - 1|)
  let M2raw := multiplyRow M1 row (1 / pivot)
  let M2 := if doScale then cleanMatrix M2raw else M1
  let ok2 := if doScale then decide (cleanMatrix M2raw = M2raw) else true
  let s2 : List Step := if doScale then [⟨M2, some MOp.multiply⟩] else []
  let e := gjElim M2 row l (List.range n)
  (e.mat, l + 1, s1 ++ s2 ++ e.steps, ok2 && e.ok)

/-- The row loop of `gaussJordan` (source lines 354-436) over the listed row
indices, carrying the lead column. -/
def gjLoop (n m : Nat) (M : Mat) (lead : Nat) : List Nat → GJState
  | [] => ⟨M, [], true⟩
  | row :: rest =>
    if m ≤ lead then ⟨M, [], true⟩
    else
      let work : Step := ⟨M, none⟩
      match gjFindPivot M n row (List.range' lead (m - lead)) with
      | none => ⟨M, [work], true⟩
      | some rl =>
        let b := gjRowBody M n row rl.1 rl.2
        let res := gjLoop n m b.1 b.2.1 rest
        ⟨res.mat, work :: b.2.2.1 ++ res.steps, b.2.2.2 && res.ok⟩

/-- `gaussJordan` (source lines 338-467): full reduction with elimination both
above and below each pivot; for an augmented `n x (n+1)` input the solution is
read off the last column. -/
def gaussJordan (input : Mat) : OpResult :=
  let matrix := cleanMatrix input
  let n := matrix.length
  let m := (matrix.getD 0 []).length
  let lp := gjLoop n m matrix 0 (List.range n)
  let final := lp.mat
  let base : List Step := ⟨matrix, none⟩ :: lp.steps ++ [⟨final, none⟩]
  if m = n + 1 then
    let sol := (List.range n).map (fun i => cleanNumber (entry final i (m - 1)))
    { steps := base ++ [⟨final, none⟩],
      result := { finalMatrix := final,
                  solution := if sol.length ≠ 0 then some sol else none } }
  else
    { steps := base, result := { finalMatrix := final } }

/-- Ghost flag: cleaning the input was a no-op and every in-loop cleanup of the
Gauss-Jordan run changed nothing.  Not part of the source. -/
def gjLossless (input : Mat) : Bool :=
  decide (cleanMatrix input = input) &&
  (gjLoop input.length ((input.getD 0 []).length) (cleanMatrix input) 0
    (List.range input.length)).ok

/-!  ## Determinant (source lines 495-628)  -/

/-- State threaded through the determinant column loop: matrix, running
determinant, swap count, steps, early-singular-return flag, and a ghost flag
that is `true` iff every skipped elimination factor was exactly 0. -/
structure DetState where
  mat : Mat
  det : ℚ
  swaps : Nat
  steps : List Step
  early : Bool
  ok : Bool
  deriving DecidableEq, Repr

/-- Elimination below the pivot in the determinant loop (source lines
591-605); the factor is `matrix[row][col] / pivot` and the pushed steps carry
no operation tag (the source omits the field there). -/
def detElimBelow (M : Mat) (col : Nat) (pivot : ℚ) : List Nat → Mat × List Step × Bool
  | [] => (M, [], true)
  | row :: rest =>
    let factor := entry M row col / pivot
    if tol < |factor| then
      let M2 := cleanMatrix (addRows M row col (-factor))
      let res := detElimBelow M2 col pivot rest
      (res.1, ⟨M2, none⟩ :: res.2.1, res.2.2)
    else
      let res := detElimBelow M col pivot rest
      (res.1, res.2.1, decide (factor = 0) && res.2.2)

/-- Result of one non-early determinant column iteration. -/
structure DetColRes where
  mat : Mat
  pivot : ℚ
  didSwap : Bool
  steps : List Step
  ok : Bool
  deriving DecidableEq, Repr

/-- One column of the determinant loop (source lines 526-605), minus the
running-determinant bookkeeping: `none` when the pivot column is zero from the
diagonal down (the source then returns determinant 0 early); otherwise the
matrix after swap and elimination, the pivot value, whether a swap happened,
the steps after the initial column-note, and the skipped-factor ghost flag. -/
def detColStep (M : Mat) (col n : Nat) : Option DetColRes :=
  let pivotRow := findPivot M col col n
  if |entry M pivotRow col| < tol then none
  else
    let doSwap := pivotRow ≠ col
    let M1 := if doSwap then swapRows M col pivotRow else M
    let s1 : List Step := if doSwap then [⟨M1, some MOp.swap⟩] else []
    let pivot := entry M1 col col
    let e := detElimBelow M1 col pivot (List.range' (col + 1) (n - (col + 1)))
    some ⟨e.1, pivot, decide doSwap, s1 ++ [(⟨M1, none⟩ : Step)] ++ e.2.1, e.2.2⟩

/-- The column loop of `calculateDeterminant` (source lines 526-606), with its
early return (`early := true`) when a pivot column is zero from the diagonal
down. -/
def detLoop (n : Nat) (M : Mat) (det : ℚ) (swaps : Nat) : List Nat → DetState
  | [] => ⟨M, det, swaps, [], false, true⟩
  | col :: rest =>
    (detColStep M col n).elim
      ⟨M, det, swaps, [⟨M, none⟩, ⟨M, none⟩], true, true⟩
      (fun c =>
        let det1 := if c.didSwap then -det else det
        let swaps1 := if c.didSwap then swaps + 1 else swaps
        let res := detLoop n c.mat (det1 * c.pivot) swaps1 rest
        ⟨res.mat, res.det, res.swaps, (⟨M, none⟩ : Step) :: c.steps ++ res.steps,
          res.early, c.ok && res.ok⟩)

/-- `calculateDeterminant` (source lines 495-628): `NaN` for non-square input,
0 with an early-terminated trace on a zero pivot column, otherwise the signed
product of the pivots, cleaned at the end. -/
def calculateDeterminant (input : Mat) : OpResult :=
  let matrix := cleanMatrix input
  let n := matrix.length
  if n ≠ (matrix.getD 0 []).length then
    { steps := [⟨matrix, none⟩],
      result := { finalMatrix := matrix, determinant := some NumVal.nan } }
  else
    let lp := detLoop n matrix 1 0 (List.range n)
    if lp.early then
      { steps := ⟨matrix, none⟩ :: lp.steps,
        result := { finalMatrix := lp.mat, determinant := some (NumVal.val 0) } }
    else
      { steps := ⟨matrix, none⟩ :: lp.steps ++ [⟨lp.mat, none⟩],
        result := { finalMatrix := lp.mat,
                    determinant := some (NumVal.val (cleanNumber lp.det)) } }

/-- Ghost flag: every elimination skipped by the determinant loop had factor
exactly 0.  Not part of the source. -/
def detBoundaryFree (input : Mat) : Bool :=
  (detLoop (cleanMatrix input).length (cleanMatrix input) 1 0
    (List.range (cleanMatrix input).length)).ok

/-!  ## Inverse (source lines 659-739)  -/

/-- The augmented matrix `[A | I]` built by `calculateInverse` (source lines
678-681) from the raw (uncleaned) input. -/
def augmentId (input : Mat) : Mat :=
  input.enum.map (fun p =>
    p.2 ++ (List.range input.length).map (fun j => if p.1 = j then (1 : ℚ) else 0))

/-- The identity check of `calculateInverse` (source lines 704-708): every
entry of the left `n` columns is within the tolerance of the identity. -/
def invIsIdentity (M : Mat) (n : Nat) : Bool :=
  M.enum.all (fun p =>
    (p.2.take n).enum.all (fun q =>
      decide (|q.2 - (if p.1 = q.1 then (1 : ℚ) else 0)| < tol)))

/-- `calculateInverse` (source lines 659-739): Gauss-Jordan on `[A | I]`; on
success the right half is the inverse, otherwise the full reduced augmented
matrix is returned as `finalMatrix`. -/
def calculateInverse (input : Mat) : OpResult :=
  let n := input.length
  if n ≠ (input.getD 0 []).length then
    { steps := [⟨input, none⟩], result := { finalMatrix := input } }
  else
    let augmented := augmentId input
    let r := gaussJordan augmented
    let inverse := r.result.finalMatrix.map (fun row => row.drop n)
    if invIsIdentity r.result.finalMatrix n then
      { steps := ⟨augmented, none⟩ :: r.steps ++ [⟨inverse, none⟩],
        result := { finalMatrix := inverse } }
    else
      { steps := ⟨augmented, none⟩ :: r.steps ++ [⟨r.result.finalMatrix, none⟩],
        result := { finalMatrix := r.result.finalMatrix } }

/-!  ## Derived predicates used by the claims  -/

/-- Index of the leading nonzero entry of a row (`row.length` if none). -/
def leadIdx : List ℚ → Nat
  | [] => 0
  | x :: rest => if x ≠ 0 then 0 else leadIdx rest + 1

/-- The claim's row-echelon-form property: every row below the first is all
zero or has its leading nonzero strictly right of the row above's. -/
def isREF (M : Mat) : Bool :=
  (List.range (M.length - 1)).all (fun i =>
    (M.getD (i + 1) []).all (fun q => decide (q = 0)) ||
    decide (leadIdx (M.getD i []) < leadIdx (M.getD (i + 1) [])))

/-- Reduced row echelon form as the claim states it: each leading entry is 1
and the sole nonzero of its column, leading entries strictly right-descending,
zero rows at the bottom. -/
def isRREF (M : Mat) : Bool :=
  (List.range M.length).all (fun i =>
    let row := M.getD i []
    let li := leadIdx row
    (decide (li = row.length) ||
      (decide (row.getD li 0 = 1) &&
        (List.range M.length).all (fun k => decide (k = i) || decide (entry M k li = 0)))) &&
    (decide (i + 1 = M.length) ||
      (decide (li < leadIdx (M.getD (i + 1) [])) ||
        decide (leadIdx (M.getD (i + 1) []) = (M.getD (i + 1) []).length))))

/-- `M` is a rectangular `n x m` matrix. -/
def rect (M : Mat) (n m : Nat) : Prop :=
  M.length = n ∧ ∀ row ∈ M, row.length = m

/-- A value is visibly clean: exactly 0 or of magnitude at least the
tolerance. -/
def cleanQ (q : ℚ) : Prop := q = 0 ∨ tol ≤ |q|

/-- Every entry of the matrix is clean. -/
def cleanM (M : Mat) : Prop := ∀ row ∈ M, ∀ q ∈ row, cleanQ q

/-- Mathematical matrix product of the list matrices (width taken from `B`'s
first row), used to state the algebraic claims. -/
def matMul (A B : Mat) : Mat :=
  A.map (fun row =>
    (List.range ((B.getD 0 []).length)).map
      (fun j => (row.enum.map (fun p => p.2 * entry B p.1 j)).sum))

/-- The `n x n` identity matrix. -/
def idMat (n : Nat) : Mat :=
  (List.range n).map (fun i => (List.range n).map (fun j => if i = j then (1 : ℚ) else 0))

/-- `M` is an `n x n` matrix that equals the identity entrywise within `eps`. -/
def approxIdMat (M : Mat) (n : Nat) (eps : ℚ) : Prop :=
  rect M n n ∧ ∀ i < n, ∀ j < n, |entry M i j - (if i = j then 1 else 0)| < eps

/-- `A` is an invertible `n x n` matrix (in the exact, mathematical sense). -/
def IsInvertible (A : Mat) (n : Nat) : Prop :=
  ∃ B : Mat, matMul A B = idMat n ∧ matMul B A = idMat n

/-- The back-substitution formula exactly as the specification states it
(`x_i = (constant_i - sum over j > i of a_ij * x_j) / a_ii`, cleaned), written
independently of the source to compare the code against the claim.  When
processing row `i` the partial solution list holds `x_(i+1) .. x_(n-1)`, so
`x_j` sits at index `j - (i+1)`. -/
def specBackSubstAux (M : Mat) (n m : Nat) : Nat → List ℚ → List ℚ
  | 0, sol => sol
  | i + 1, sol =>
    let sum := entry M i (m - 1) -
      (((List.range' (i + 1) (n - (i + 1))).map
        (fun j => entry M i j * sol.getD (j - (i + 1)) 0)).sum)
    specBackSubstAux M n m i (cleanNumber (sum / entry M i i) :: sol)

/-- Back substitution by the specification's formula. -/
def specBackSubst (M : Mat) (n m : Nat) : List ℚ := specBackSubstAux M n m n []

/-!  ## Access lemmas  -/

theorem getD_set_self {α : Type _} (l : List α) (i : Nat) (a d : α) (h : i < l.length) :
    (l.set i a).getD i d = a := by
  rw [List.getD_eq_getElem?_getD, List.getElem?_set, if_pos rfl, if_pos h, Option.getD_some]

theorem getD_set_ne {α : Type _} (l : List α) (i j : Nat) (a d : α) (h : i ≠ j) :
    (l.set i a).getD j d = l.getD j d := by
  rw [List.getD_eq_getElem?_getD, List.getElem?_set, if_neg h, ← List.getD_eq_getElem?_getD]

theorem getD_mem {α : Type _} (l : List α) (n : Nat) (d : α) (h : n < l.length) :
    l.getD n d ∈ l := by
  rw [List.getD_eq_getElem l d h]
  exact List.getElem_mem h

theorem getD_map_zero (f : ℚ → ℚ) (h0 : f 0 = 0) (l : List ℚ) (j : Nat) :
    (l.map f).getD j 0 = f (l.getD j 0) := by
  conv_lhs => rw [← h0]
  rw [List.getD_map]

theorem getD_map_nil (g : List ℚ → List ℚ) (h0 : g [] = []) (M : Mat) (i : Nat) :
    (M.map g).getD i [] = g (M.getD i []) := by
  conv_lhs => rw [← h0]
  rw [List.getD_map]

theorem cleanNumber_zero : cleanNumber 0 = 0 := by
  simp [cleanNumber]

theorem entry_cleanMatrix (M : Mat) (i j : Nat) :
    entry (cleanMatrix M) i j = cleanNumber (entry M i j) := by
  unfold entry cleanMatrix
  rw [getD_map_nil _ rfl, getD_map_zero _ cleanNumber_zero]

theorem length_cleanMatrix (M : Mat) : (cleanMatrix M).length = M.length := by
  simp [cleanMatrix]

theorem width_cleanMatrix (M : Mat) :
    ((cleanMatrix M).getD 0 []).length = (M.getD 0 []).length := by
  unfold cleanMatrix
  rw [getD_map_nil _ rfl]
  simp

theorem length_swapRows (M : Mat) (r1 r2 : Nat) : (swapRows M r1 r2).length = M.length := by
  simp [swapRows]

theorem length_multiplyRow (M : Mat) (r : Nat) (k : ℚ) :
    (multiplyRow M r k).length = M.length := by
  simp [multiplyRow]

theorem length_addRowsVec (a b : List ℚ) (k : ℚ) : (addRowsVec a b k).length = a.length := by
  simp [addRowsVec]

theorem length_addRows (M : Mat) (t s : Nat) (k : ℚ) : (addRows M t s k).length = M.length := by
  simp [addRows]

theorem entry_swapRows (M : Mat) (r1 r2 : Nat) (h1 : r1 < M.length) (h2 : r2 < M.length)
    (i j : Nat) :
    entry (swapRows M r1 r2) i j =
      if i = r2 then entry M r1 j else if i = r1 then entry M r2 j else entry M i j := by
  unfold swapRows entry
  by_cases hir2 : i = r2
  · subst hir2
    rw [if_pos rfl, getD_set_self _ _ _ _ (by simpa using h2)]
  · rw [if_neg hir2, getD_set_ne _ _ _ _ _ (fun h => hir2 h.symm)]
    by_cases hir1 : i = r1
    · subst hir1
      rw [if_pos rfl, getD_set_self _ _ _ _ h1]
    · rw [if_neg hir1, getD_set_ne _ _ _ _ _ (fun h => hir1 h.symm)]

theorem entry_multiplyRow (M : Mat) (r : Nat) (k : ℚ) (i j : Nat) :
    entry (multiplyRow M r k) i j =
      if i = r ∧ r < M.length then entry M i j * k else entry M i j := by
  unfold multiplyRow entry
  by_cases hir : i = r
  · subst hir
    by_cases hr : i < M.length
    · rw [if_pos ⟨rfl, hr⟩, getD_set_self _ _ _ _ hr,
        getD_map_zero (fun v => v * k) (by ring)]
    · rw [if_neg (by tauto), List.set_eq_of_length_le (by omega)]
  · rw [if_neg (by tauto), getD_set_ne _ _ _ _ _ (fun h => hir h.symm)]

theorem getD_addRowsVec (a b : List ℚ) (k : ℚ) (j : Nat) :
    (addRowsVec a b k).getD j 0 =
      if j < a.length then a.getD j 0 + k * b.getD j 0 else 0 := by
  unfold addRowsVec
  rcases Nat.lt_or_ge j a.length with h | h
  · rw [if_pos h, List.getD_eq_getElem _ _ (by simpa using h)]
    simp
  · rw [if_neg (Nat.not_lt.mpr h), List.getD_eq_default]
    simpa using h

theorem entry_addRows (M : Mat) (t s : Nat) (k : ℚ) (i j : Nat) :
    entry (addRows M t s k) i j =
      if i = t ∧ t < M.length ∧ j < (M.getD t []).length
      then entry M t j + k * entry M s j
      else entry M i j := by
  unfold addRows entry
  by_cases hit : i = t
  · subst hit
    by_cases ht : i < M.length
    · rw [getD_set_self _ _ _ _ ht, getD_addRowsVec]
      by_cases hj : j < (M.getD i []).length
      · rw [if_pos hj, if_pos ⟨rfl, ht, hj⟩]
      · rw [if_neg hj, if_neg (by tauto), List.getD_eq_default _ _ (Nat.le_of_not_lt hj)]
    · rw [if_neg (by tauto), List.set_eq_of_length_le (by omega)]
  · rw [if_neg (by tauto), getD_set_ne _ _ _ _ _ (fun h => hit h.symm)]

theorem entry_out_of_range_row (M : Mat) (i j : Nat) (h : M.length ≤ i) :
    entry M i j = 0 := by
  unfold entry
  rw [List.getD_eq_default _ _ h]
  simp

/-!  ## Shape and cleanliness preservation  -/

theorem rect_rowLen {M : Mat} {n m : Nat} (h : rect M n m) {i : Nat} (hi : i < n) :
    (M.getD i []).length = m :=
  h.2 _ (getD_mem _ _ _ (h.1 ▸ hi))

theorem rect_set {M : Mat} {n m : Nat} (h : rect M n m) {row : List ℚ}
    (hrow : row.length = m) (i : Nat) : rect (M.set i row) n m := by
  refine ⟨by simpa using h.1, fun r hr => ?_⟩
  rcases List.mem_or_eq_of_mem_set hr with h' | h'
  · exact h.2 _ h'
  · exact h' ▸ hrow

theorem rect_swapRows {M : Mat} {n m : Nat} (h : rect M n m) {r1 r2 : Nat}
    (h1 : r1 < n) (h2 : r2 < n) : rect (swapRows M r1 r2) n m :=
  rect_set (rect_set h (rect_rowLen h h2) r1) (rect_rowLen h h1) r2

theorem rect_multiplyRow {M : Mat} {n m : Nat} (h : rect M n m) {r : Nat} (hr : r < n)
    (k : ℚ) : rect (multiplyRow M r k) n m :=
  rect_set h (by simpa using rect_rowLen h hr) r

theorem rect_addRows {M : Mat} {n m : Nat} (h : rect M n m) {t : Nat} (ht : t < n)
    (s : Nat) (k : ℚ) : rect (addRows M t s k) n m :=
  rect_set h (by simpa [length_addRowsVec] using rect_rowLen h ht) t

theorem rect_cleanMatrix {M : Mat} {n m : Nat} (h : rect M n m) :
    rect (cleanMatrix M) n m := by
  refine ⟨by simpa [cleanMatrix] using h.1, fun row hrow => ?_⟩
  simp only [cleanMatrix, List.mem_map] at hrow
  obtain ⟨r, hr, rfl⟩ := hrow
  simpa using h.2 r hr

theorem cleanQ_zero : cleanQ 0 := Or.inl rfl

theorem cleanQ_cleanNumber (q : ℚ) : cleanQ (cleanNumber q) := by
  unfold cleanNumber
  by_cases h : |q| < tol
  · rw [if_pos h]; exact Or.inl rfl
  · rw [if_neg h]; exact Or.inr (le_of_not_lt h)

theorem cleanM_row {M : Mat} (h : cleanM M) (i : Nat) : ∀ q ∈ M.getD i [], cleanQ q := by
  rcases Nat.lt_or_ge i M.length with hi | hi
  · exact h _ (getD_mem _ _ _ hi)
  · rw [List.getD_eq_default _ _ hi]
    intro q hq
    simp at hq

theorem cleanM_entry {M : Mat} (h : cleanM M) (i j : Nat) : cleanQ (entry M i j) := by
  rcases Nat.lt_or_ge j (M.getD i []).length with hj | hj
  · exact cleanM_row h i _ (getD_mem _ _ _ hj)
  · unfold entry
    rw [List.getD_eq_default _ _ hj]
    exact cleanQ_zero

theorem cleanM_set {M : Mat} (h : cleanM M) {row : List ℚ} (hrow : ∀ q ∈ row, cleanQ q)
    (i : Nat) : cleanM (M.set i row) := by
  intro r hr
  rcases List.mem_or_eq_of_mem_set hr with h' | h'
  · exact h _ h'
  · exact h' ▸ hrow

theorem cleanM_swapRows {M : Mat} (h : cleanM M) (r1 r2 : Nat) :
    cleanM (swapRows M r1 r2) :=
  cleanM_set (cleanM_set h (cleanM_row h r2) r1) (cleanM_row h r1) r2

theorem cleanM_cleanMatrix (M : Mat) : cleanM (cleanMatrix M) := by
  intro row hrow q hq
  simp only [cleanMatrix, List.mem_map] at hrow
  obtain ⟨r, _, rfl⟩ := hrow
  simp only [List.mem_map] at hq
  obtain ⟨v, _, rfl⟩ := hq
  exact cleanQ_cleanNumber v

/-!  ## Concrete-instance theorems  -/

set_option maxRecDepth 10000 in
set_option maxHeartbeats 2000000 in
/-- C7: on the input `[[1,2,4],[3,4,10]]`, Gauss-Jordan returns the final
matrix `[[1,0,2],[0,1,1]]` and the solution `[2, 1]`. -/
theorem gaussJordan_solves_example :
    (gaussJordan [[1, 2, 4], [3, 4, 10]]).result.finalMatrix = [[1, 0, 2], [0, 1, 1]] ∧
    (gaussJordan [[1, 2, 4], [3, 4, 10]]).result.solution = some [2, 1] := by
  norm_num [gaussJordan, gjLoop, gjFindPivot, gjRowBody, gjElim, entry, swapRows, multiplyRow,
    addRows, addRowsVec, cleanMatrix, cleanNumber, tol, abs_div, abs_neg, abs_one, abs_zero, abs_pow, List.range_succ, List.range'_succ,
    List.find?]

set_option maxRecDepth 10000 in
set_option maxHeartbeats 2000000 in
/-- C1: the back-substitution phase does not compute the claimed formula.  On
the already-echelon augmented system `[[1,2,3,0],[0,1,4,0],[0,0,1,1]]` the
forward phase leaves the matrix unchanged, the claimed formula
`x_i = (c_i - sum_(j>i) a_ij x_j)/a_ii` gives `[5, -4, 1]`, but the code
returns `[10, -4, 1]` because it pairs `matrix[i][j]` with `solution[n-1-j]`
in the `unshift`-built solution list, i.e. with the wrong solved variable. -/
theorem gaussianElimination_backSubst_wrong_index :
    (gaussianElimination [[1, 2, 3, 0], [0, 1, 4, 0], [0, 0, 1, 1]]).result.finalMatrix
        = [[1, 2, 3, 0], [0, 1, 4, 0], [0, 0, 1, 1]] ∧
    (gaussianElimination [[1, 2, 3, 0], [0, 1, 4, 0], [0, 0, 1, 1]]).result.solution
        = some [10, -4, 1] ∧
    specBackSubst [[1, 2, 3, 0], [0, 1, 4, 0], [0, 0, 1, 1]] 3 4 = [5, -4, 1] := by
  refine ⟨?_, ?_, ?_⟩ <;>
    norm_num [gaussianElimination, geRun, geLoop, geColStep, geColScaleElim, geElimBelow, findPivot,
      backSubstAux, specBackSubst, specBackSubstAux, entry, swapRows, multiplyRow,
      addRows, addRowsVec, cleanMatrix, cleanNumber, tol, abs_div, abs_neg, abs_one, abs_zero, abs_pow, List.range_succ,
      List.range'_succ]

set_option maxRecDepth 10000 in
set_option maxHeartbeats 2000000 in
/-- C2 counterexample: on `[[0,1],[0,2]]` (2 rows, 2 columns) the column loop
only examines column 0 (`min n (m-1) = 1`), which is all zero, so the final
matrix is unchanged and is not in row echelon form: rows 0 and 1 both have
their leading nonzero in column 1. -/
theorem geREF_counterexample :
    (gaussianElimination [[0, 1], [0, 2]]).result.finalMatrix = [[0, 1], [0, 2]] ∧
    isREF (gaussianElimination [[0, 1], [0, 2]]).result.finalMatrix = false := by
  norm_num [gaussianElimination, geRun, geLoop, geColStep, geColScaleElim, geElimBelow, findPivot,
    entry, swapRows, multiplyRow, addRows, addRowsVec, cleanMatrix, cleanNumber, tol, abs_div, abs_neg, abs_one, abs_zero, abs_pow,
    List.range_succ, List.range'_succ, isREF, leadIdx]

set_option maxRecDepth 10000 in
set_option maxHeartbeats 2000000 in
/-- Tolerance-boundary violation of row-echelon shape in a *processed* column:
with pivot `1 + 1e-10` (within tolerance of 1, so the scaling step is skipped)
and an equal-magnitude entry below, elimination leaves the nonzero residue
`1e-10 + 1e-20` below the pivot. -/
theorem geREF_boundary_violation :
    isREF (gaussianElimination
      [[1 + 1 / 10 ^ 10, 0], [-(1 + 1 / 10 ^ 10), 0]]).result.finalMatrix = false := by
  norm_num [gaussianElimination, geRun, geLoop, geColStep, geColScaleElim, geElimBelow, findPivot,
    entry, swapRows, multiplyRow, addRows, addRowsVec, cleanMatrix, cleanNumber, tol, abs_div, abs_neg, abs_one, abs_zero, abs_pow,
    List.range_succ, List.range'_succ, isREF, leadIdx]

set_option maxRecDepth 10000 in
set_option maxHeartbeats 2000000 in
/-- C3 counterexample: `[[1e-11]]` is invertible (inverse `[[1e11]]`), but
`calculateInverse` cleans the augmented matrix to `[[0, 1]]`, fails the
identity check, and returns the full reduced augmented matrix `[[0, 1]]`;
the product with the input is nowhere near the 1x1 identity. -/
theorem inverse_roundtrip_counterexample :
    IsInvertible [[1 / 10 ^ 11]] 1 ∧
    (calculateInverse [[1 / 10 ^ 11]]).result.finalMatrix = [[0, 1]] ∧
    ¬ approxIdMat
        (matMul [[1 / 10 ^ 11]] (calculateInverse [[1 / 10 ^ 11]]).result.finalMatrix)
        1 (1 / 10 ^ 8) := by
  have hfin : (calculateInverse [[1 / 10 ^ 11]]).result.finalMatrix = [[0, 1]] := by
    norm_num [calculateInverse, augmentId, invIsIdentity, gaussJordan, gjLoop,
      gjFindPivot, gjRowBody, gjElim, entry, swapRows, multiplyRow, addRows, addRowsVec,
      cleanMatrix, cleanNumber, tol, abs_div, abs_neg, abs_one, abs_zero, abs_pow, List.range_succ, List.range'_succ, List.find?,
      List.enum, List.enumFrom]
  have hmm : matMul [[1 / 10 ^ 11]] [[0, 1]] = [[0, 1 / 10 ^ 11]] := by
    norm_num [matMul, entry, List.range_succ, List.enum, List.enumFrom]
  refine ⟨⟨[[10 ^ 11]], ?_, ?_⟩, hfin, ?_⟩
  · norm_num [matMul, idMat, entry, List.range_succ, List.enum, List.enumFrom]
  · norm_num [matMul, idMat, entry, List.range_succ, List.enum, List.enumFrom]
  · rw [hfin, hmm]
    rintro ⟨⟨-, hrows⟩, -⟩
    have := hrows [0, 1 / 10 ^ 11] (by simp)
    simp at this

set_option maxRecDepth 10000 in
set_option maxHeartbeats 2000000 in
/-- C4 counterexample: for the singular input `[[0]]`, the returned
`finalMatrix` is the full 1x2 reduced augmented matrix `[[0,1]]`, not the
1x1 left half. -/
theorem inverse_singular_counterexample :
    (calculateInverse [[0]]).result.finalMatrix = [[0, 1]] ∧
    ¬ rect (calculateInverse [[0]]).result.finalMatrix 1 1 := by
  have hfin : (calculateInverse [[0]]).result.finalMatrix = [[0, 1]] := by
    norm_num [calculateInverse, augmentId, invIsIdentity, gaussJordan, gjLoop,
      gjFindPivot, gjRowBody, gjElim, entry, swapRows, multiplyRow, addRows, addRowsVec,
      cleanMatrix, cleanNumber, tol, abs_div, abs_neg, abs_one, abs_zero, abs_pow, List.range_succ, List.range'_succ, List.find?,
      List.enum, List.enumFrom]
  refine ⟨hfin, ?_⟩
  rw [hfin]
  rintro ⟨-, hrows⟩
  have := hrows [0, 1] (by simp)
  simp at this

set_option maxRecDepth 10000 in
set_option maxHeartbeats 2000000 in
/-- C5 counterexample: `calculateInverse` records the raw augmented matrix as
its first step before any cleanup, so a valid input with the tiny entry
`1e-20` puts the dirty value `1e-20` (neither 0 nor of magnitude >= 1e-10)
into a recorded step. -/
theorem clean_invariant_counterexample :
    ((calculateInverse [[1 / 10 ^ 20]]).steps.headD default).matrix
        = [[1 / 10 ^ 20, 1]] ∧
    ¬ cleanM [[1 / 10 ^ 20, 1]] := by
  constructor
  · norm_num [calculateInverse, augmentId, invIsIdentity, gaussJordan, gjLoop,
      gjFindPivot, gjRowBody, gjElim, entry, swapRows, multiplyRow, addRows, addRowsVec,
      cleanMatrix, cleanNumber, tol, abs_div, abs_neg, abs_one, abs_zero, abs_pow, List.range_succ, List.range'_succ, List.find?,
      List.enum, List.enumFrom]
  · intro h
    have := h [1 / 10 ^ 20, 1] (by simp) (1 / 10 ^ 20) (by simp)
    rcases this with h0 | h0
    · exact absurd h0 (by norm_num)
    · exact absurd h0 (by norm_num [tol, abs_div, abs_one, abs_pow])

set_option maxRecDepth 10000 in
set_option maxHeartbeats 2000000 in
/-- C10 counterexample: on `[[10, 0], [1e-10, 1]]` the elimination factor is
`1e-11 <= tol`, so the below-diagonal entry `1e-10` is never eliminated; the
determinant is the nonzero, non-NaN value 10 yet the final matrix has a
nonzero entry strictly below the diagonal. -/
theorem det_below_diagonal_counterexample :
    (calculateDeterminant [[10, 0], [1 / 10 ^ 10, 1]]).result.determinant
        = some (NumVal.val 10) ∧
    entry (calculateDeterminant [[10, 0], [1 / 10 ^ 10, 1]]).result.finalMatrix 1 0
        = 1 / 10 ^ 10 ∧
    (1 / 10 ^ 10 : ℚ) ≠ 0 := by
  refine ⟨?_, ?_, by norm_num⟩ <;>
    norm_num [calculateDeterminant, detLoop, detColStep, detElimBelow, Option.elim, findPivot, entry, swapRows,
      multiplyRow, addRows, addRowsVec, cleanMatrix, cleanNumber, tol, abs_div, abs_neg, abs_one, abs_zero, abs_pow,
      List.range_succ, List.range'_succ]

/-!  ## C6: determinant NaN exactly on non-square input  -/

/-- C6: for a non-empty input, `calculateDeterminant` returns `NaN` iff the
input is not square; on a non-square input it records a single descriptive
error step (holding the cleaned matrix) and returns the matrix with `NaN`
rather than throwing, and on every square input the determinant is a real
value, never `NaN`. -/
theorem calculateDeterminant_nan_iff (input : Mat) (hne : input ≠ []) :
    ((calculateDeterminant input).result.determinant = some NumVal.nan ↔
      input.length ≠ (input.getD 0 []).length) ∧
    (input.length ≠ (input.getD 0 []).length →
      (calculateDeterminant input).steps = [⟨cleanMatrix input, none⟩] ∧
      (calculateDeterminant input).result.finalMatrix = cleanMatrix input) := by
  have hl := length_cleanMatrix input
  have hw := width_cleanMatrix input
  by_cases hsq : input.length = (input.getD 0 []).length
  · constructor
    · refine iff_of_false ?_ (by simpa using hsq)
      simp only [calculateDeterminant, hl, hw]
      rw [if_neg (by omega)]
      split <;> simp
    · intro h
      exact absurd hsq h
  · simp only [calculateDeterminant, hl, hw]
    rw [if_pos (by omega)]
    exact ⟨iff_of_true rfl hsq, fun _ => ⟨rfl, rfl⟩⟩

/-- Witness for `calculateDeterminant_nan_iff` at the non-square input
`[[1, 2]]`. -/
theorem calculateDeterminant_nan_iff_witness :
    ([[(1 : ℚ), 2]] : Mat) ≠ [] ∧
    ((calculateDeterminant [[(1 : ℚ), 2]]).result.determinant = some NumVal.nan ↔
      ([[(1 : ℚ), 2]] : Mat).length ≠ (([[(1 : ℚ), 2]] : Mat).getD 0 []).length) ∧
    (([[(1 : ℚ), 2]] : Mat).length ≠ (([[(1 : ℚ), 2]] : Mat).getD 0 []).length →
      (calculateDeterminant [[(1 : ℚ), 2]]).steps = [⟨cleanMatrix [[(1 : ℚ), 2]], none⟩] ∧
      (calculateDeterminant [[(1 : ℚ), 2]]).result.finalMatrix
        = cleanMatrix [[(1 : ℚ), 2]]) :=
  ⟨by simp, calculateDeterminant_nan_iff [[(1 : ℚ), 2]] (by simp)⟩

/-!  ## Pivot-search bounds  -/

theorem foldl_ite_mem (P : Nat → Nat → Prop) [inst : ∀ a b, Decidable (P a b)]
    (l : List Nat) (a : Nat) :
    l.foldl (fun p row => if P p row then row else p) a = a ∨
      l.foldl (fun p row => if P p row then row else p) a ∈ l := by
  induction l generalizing a with
  | nil => exact Or.inl rfl
  | cons b t ih =>
    rcases ih (if P a b then b else a) with h | h
    · rw [List.foldl_cons, h]
      split
      · exact Or.inr (List.mem_cons_self _ _)
      · exact Or.inl rfl
    · exact Or.inr (List.mem_cons_of_mem _ h)

theorem findPivot_bound (M : Mat) (col start n : Nat) (h : start < n) :
    start ≤ findPivot M col start n ∧ findPivot M col start n < n := by
  unfold findPivot
  rcases foldl_ite_mem (fun p row => |entry M p col| < |entry M row col|)
      (List.range' (start + 1) (n - (start + 1))) start with hh | hh
  · rw [hh]; exact ⟨le_refl _, h⟩
  · rcases List.mem_range'_1.mp hh with ⟨h1, h2⟩
    exact ⟨le_of_lt h1, by omega⟩

theorem findPivot_max (M : Mat) (col start n : Nat) :
    ∀ r, start ≤ r → r < n → |entry M r col| ≤ |entry M (findPivot M col start n) col| := by
  have key : ∀ (l : List Nat) (a : Nat),
      (∀ r ∈ l, |entry M r col| ≤
        |entry M (l.foldl (fun p row => if |entry M p col| < |entry M row col| then row else p) a) col|) ∧
      |entry M a col| ≤
        |entry M (l.foldl (fun p row => if |entry M p col| < |entry M row col| then row else p) a) col| := by
    intro l
    induction l with
    | nil => exact fun a => ⟨fun r hr => absurd hr (List.not_mem_nil r), le_refl _⟩
    | cons b t ih =>
      intro a
      have step : |entry M a col| ≤ |entry M (if |entry M a col| < |entry M b col| then b else a) col| ∧
          |entry M b col| ≤ |entry M (if |entry M a col| < |entry M b col| then b else a) col| := by
        split
        · exact ⟨le_of_lt (by assumption), le_refl _⟩
        · exact ⟨le_refl _, le_of_not_lt (by assumption)⟩
      refine ⟨fun r hr => ?_, le_trans step.1 (ih _).2⟩
      rcases List.mem_cons.mp hr with rfl | hr
      · exact le_trans step.2 (ih _).2
      · exact (ih _).1 r hr
  intro r hs hn
  unfold findPivot
  rcases Nat.eq_or_lt_of_le hs with heq | hlt
  · rw [← heq]
    exact (key _ start).2
  · exact (key _ start).1 r (List.mem_range'_1.mpr ⟨hlt, by omega⟩)

theorem gjFindPivot_some (M : Mat) (n row : Nat) :
    ∀ (leads : List Nat) (r l : Nat), gjFindPivot M n row leads = some (r, l) →
      (row ≤ r ∧ r < n) ∧ l ∈ leads ∧ tol ≤ |entry M r l| := by
  intro leads
  induction leads with
  | nil => intro r l h; simp [gjFindPivot] at h
  | cons lead rest ih =>
    intro r l h
    unfold gjFindPivot at h
    rcases hfind : (List.range' row (n - row)).find? (fun r => decide (tol ≤ |entry M r lead|)) with
      _ | r0
    · rw [hfind] at h
      dsimp only at h
      rcases ih r l h with ⟨hb, hm, ht⟩
      exact ⟨hb, List.mem_cons_of_mem _ hm, ht⟩
    · rw [hfind] at h
      dsimp only at h
      injection h with h
      have hmem := List.mem_of_find?_eq_some hfind
      have hp := List.find?_some hfind
      rcases List.mem_range'_1.mp hmem with ⟨h1, h2⟩
      have := of_decide_eq_true hp
      cases h
      exact ⟨⟨h1, by omega⟩, List.mem_cons_self _ _, this⟩

/-!  ## Shape preservation through the loops  -/

theorem rect_gjElim {n m : Nat} (row lead : Nat) :
    ∀ (is : List Nat) (M : Mat), rect M n m → (∀ i ∈ is, i < n) →
      rect (gjElim M row lead is).mat n m := by
  intro is
  induction is with
  | nil => intro M h _; exact h
  | cons i rest ih =>
    intro M h hb
    simp only [gjElim]
    by_cases hir : i = row
    · rw [if_pos hir]
      exact ih M h (fun k hk => hb k (List.mem_cons_of_mem _ hk))
    · rw [if_neg hir]
      split
      · exact ih _ (rect_cleanMatrix (rect_addRows h (hb i (List.mem_cons_self _ _)) _ _))
          (fun k hk => hb k (List.mem_cons_of_mem _ hk))
      · exact ih M h (fun k hk => hb k (List.mem_cons_of_mem _ hk))

theorem rect_gjRowBody {n m : Nat} {M : Mat} (h : rect M n m) {row r : Nat}
    (hrow : row < n) (hr : r < n) (l : Nat) :
    rect (gjRowBody M n row r l).1 n m := by
  simp only [gjRowBody]
  have h1 : rect (if r ≠ row then swapRows M row r else M) n m := by
    split
    · exact rect_swapRows h hrow hr
    · exact h
  have h2 : ∀ M1 : Mat, rect M1 n m → ∀ b : Bool, ∀ k : ℚ,
      rect (if b then cleanMatrix (multiplyRow M1 row k) else M1) n m := by
    intro M1 hM1 b k
    split
    · exact rect_cleanMatrix (rect_multiplyRow hM1 hrow k)
    · exact hM1
  exact rect_gjElim row l (List.range n) _ (h2 _ h1 _ _)
    (fun k hk => List.mem_range.mp hk)

theorem rect_gjLoop {n m : Nat} :
    ∀ (rows : List Nat) (M : Mat) (lead : Nat), rect M n m → (∀ r ∈ rows, r < n) →
      rect (gjLoop n m M lead rows).mat n m := by
  intro rows
  induction rows with
  | nil => intro M lead h _; exact h
  | cons row rest ih =>
    intro M lead h hb
    simp only [gjLoop]
    split
    · exact h
    · rcases hfp : gjFindPivot M n row (List.range' lead (m - lead)) with _ | rl
      · exact h
      · rcases gjFindPivot_some M n row _ rl.1 rl.2 (by rw [hfp]) with ⟨⟨hr1, hr2⟩, -, -⟩
        have hrow : row < n := hb row (List.mem_cons_self _ _)
        have hbody := rect_gjRowBody h hrow hr2 rl.2
        exact ih _ _ hbody (fun k hk => hb k (List.mem_cons_of_mem _ hk))

theorem rect_geElimBelow {n m : Nat} {currentRow : Nat} (col : Nat) (hcr : currentRow < n) :
    ∀ (rows : List Nat) (M : Mat), rect M n m → (∀ i ∈ rows, i < n) →
      rect (geElimBelow M currentRow col rows).1 n m := by
  intro rows
  induction rows with
  | nil => intro M h _; exact h
  | cons row rest ih =>
    intro M h hb
    simp only [geElimBelow]
    split
    · exact ih _ (rect_cleanMatrix (rect_addRows h (hb row (List.mem_cons_self _ _)) _ _))
        (fun k hk => hb k (List.mem_cons_of_mem _ hk))
    · exact ih M h (fun k hk => hb k (List.mem_cons_of_mem _ hk))

theorem rect_geColScaleElim {n m : Nat} {M1 : Mat} (h : rect M1 n m) {currentRow : Nat}
    (hcr : currentRow < n) (col : Nat) :
    rect (geColScaleElim M1 currentRow col n).1 n m := by
  have h2 : rect (if tol < |entry M1 currentRow col - 1|
      then cleanMatrix (multiplyRow M1 currentRow (1 / entry M1 currentRow col)) else M1) n m := by
    split
    · exact rect_cleanMatrix (rect_multiplyRow h hcr _)
    · exact h
  simp only [geColScaleElim]
  exact rect_geElimBelow _ hcr _ _ h2
    (fun k hk => by rcases List.mem_range'_1.mp hk with ⟨h1k, h2k⟩; omega)

theorem rect_geColStep {n m : Nat} {M : Mat} (h : rect M n m) {currentRow : Nat}
    (hcr : currentRow < n) (col : Nat) :
    rect (geColStep M currentRow col n).mat n m := by
  simp only [geColStep]
  split
  · exact h
  · have h1 : rect (if findPivot M col currentRow n ≠ currentRow
        then swapRows M currentRow (findPivot M col currentRow n) else M) n m := by
      split
      · exact rect_swapRows h hcr (findPivot_bound M col currentRow n hcr).2
      · exact h
    exact rect_geColScaleElim h1 hcr col

theorem rect_geLoop {n m : Nat} :
    ∀ (cols : List Nat) (M : Mat) (currentRow : Nat), rect M n m →
      rect (geLoop n M currentRow cols).mat n m := by
  intro cols
  induction cols with
  | nil => intro M c h; exact h
  | cons col rest ih =>
    intro M currentRow h
    simp only [geLoop]
    split
    · exact h
    · exact ih _ _ (rect_geColStep h (by omega) col)

theorem rect_detElimBelow {n m : Nat} {col : Nat} (hcol : col < n) (pivot : ℚ) :
    ∀ (rows : List Nat) (M : Mat), rect M n m → (∀ i ∈ rows, i < n) →
      rect (detElimBelow M col pivot rows).1 n m := by
  intro rows
  induction rows with
  | nil => intro M h _; exact h
  | cons row rest ih =>
    intro M h hb
    simp only [detElimBelow]
    split
    · exact ih _ (rect_cleanMatrix (rect_addRows h (hb row (List.mem_cons_self _ _)) _ _))
        (fun k hk => hb k (List.mem_cons_of_mem _ hk))
    · exact ih M h (fun k hk => hb k (List.mem_cons_of_mem _ hk))

theorem rect_detColStep {n m : Nat} {M : Mat} (h : rect M n m) {col : Nat}
    (hcol : col < n) {c : DetColRes} (hc : detColStep M col n = some c) :
    rect c.mat n m := by
  simp only [detColStep] at hc
  split at hc
  · cases hc
  · have h1 : rect (if findPivot M col col n ≠ col
        then swapRows M col (findPivot M col col n) else M) n m := by
      split
      · exact rect_swapRows h hcol (findPivot_bound M col col n hcol).2
      · exact h
    injection hc with hc
    rw [← hc]
    exact rect_detElimBelow hcol _ _ _ h1
      (fun k hk => by rcases List.mem_range'_1.mp hk with ⟨h1k, h2k⟩; omega)

theorem rect_detLoop {n m : Nat} :
    ∀ (cols : List Nat) (M : Mat) (det : ℚ) (swaps : Nat), rect M n m →
      (∀ c ∈ cols, c < n) → rect (detLoop n M det swaps cols).mat n m := by
  intro cols
  induction cols with
  | nil => intro M det swaps h _; exact h
  | cons col rest ih =>
    intro M det swaps h hb
    simp only [detLoop]
    rcases hc : detColStep M col n with _ | c
    · simp only [Option.elim]
      exact h
    · simp only [Option.elim]
      exact ih _ _ _ (rect_detColStep h (hb col (List.mem_cons_self _ _)) hc)
        (fun k hk => hb k (List.mem_cons_of_mem _ hk))

/-!  ## C9: the Gauss-Jordan solution is always the cleaned last column  -/

/-- C9: for every rectangular `n x (n+1)` input with `n >= 1`, `gaussJordan`
returns a solution — the cleaned last column of the (rectangular `n x (n+1)`)
final matrix, of length exactly `n` — unconditionally: no consistency check is
performed and no failure is signaled, also on singular or inconsistent
systems (see the witness, an inconsistent system). -/
theorem gaussJordan_solution_unconditional (input : Mat) (n : Nat) (hn : 0 < n)
    (h : rect input n (n + 1)) :
    rect (gaussJordan input).result.finalMatrix n (n + 1) ∧
    (gaussJordan input).result.solution =
      some ((List.range n).map (fun i =>
        cleanNumber (entry (gaussJordan input).result.finalMatrix i n))) ∧
    ((gaussJordan input).result.solution.getD []).length = n := by
  have hrc : rect (cleanMatrix input) n (n + 1) := rect_cleanMatrix h
  have hlen : (cleanMatrix input).length = n := hrc.1
  have hwid : ((cleanMatrix input).getD 0 []).length = n + 1 := rect_rowLen hrc hn
  have hloop : rect (gjLoop n (n + 1) (cleanMatrix input) 0 (List.range n)).mat n (n + 1) :=
    rect_gjLoop _ _ _ hrc (fun r hr => List.mem_range.mp hr)
  simp only [gaussJordan, hlen, hwid, if_pos rfl]
  refine ⟨hloop, ?_, ?_⟩ <;> simp [hn.ne']

/-- Witness for `gaussJordan_solution_unconditional` at the inconsistent
system `[[1,1,2],[1,1,3]]` (no `x, y` satisfy both equations, yet a solution
vector of length 2 is returned). -/
theorem gaussJordan_solution_unconditional_witness :
    0 < 2 ∧ rect [[1, 1, 2], [1, 1, 3]] 2 3 ∧
    (rect (gaussJordan [[1, 1, 2], [1, 1, 3]]).result.finalMatrix 2 (2 + 1) ∧
     (gaussJordan [[1, 1, 2], [1, 1, 3]]).result.solution =
       some ((List.range 2).map (fun i =>
         cleanNumber (entry (gaussJordan [[1, 1, 2], [1, 1, 3]]).result.finalMatrix i 2))) ∧
     ((gaussJordan [[1, 1, 2], [1, 1, 3]]).result.solution.getD []).length = 2) :=
  ⟨by norm_num, by simp [rect],
   gaussJordan_solution_unconditional [[1, 1, 2], [1, 1, 3]] 2 (by norm_num)
     (by simp [rect])⟩

/-!  ## Cleanliness of recorded steps (C5)  -/

theorem cleanM_map_drop {M : Mat} (h : cleanM M) (n : Nat) :
    cleanM (M.map (fun row => row.drop n)) := by
  intro row hrow q hq
  simp only [List.mem_map] at hrow
  obtain ⟨r, hr, rfl⟩ := hrow
  exact h r hr q (List.mem_of_mem_drop hq)

theorem clean_geElimBelow (currentRow col : Nat) :
    ∀ (rows : List Nat) (M : Mat), cleanM M →
      cleanM (geElimBelow M currentRow col rows).1 ∧
      ∀ s ∈ (geElimBelow M currentRow col rows).2.1, cleanM s.matrix := by
  intro rows
  induction rows with
  | nil => intro M h; exact ⟨h, fun s hs => absurd hs (List.not_mem_nil s)⟩
  | cons row rest ih =>
    intro M h
    simp only [geElimBelow]
    split
    · rcases ih (cleanMatrix (addRows M row currentRow (-entry M row col)))
        (cleanM_cleanMatrix _) with ⟨h1, h2⟩
      refine ⟨h1, fun s hs => ?_⟩
      rcases List.mem_cons.mp hs with rfl | hs
      · exact cleanM_cleanMatrix _
      · exact h2 s hs
    · exact ih M h

/-- All step matrices in the list are clean. -/
def stepsClean (A : List Step) : Prop := ∀ s ∈ A, cleanM s.matrix

theorem stepsClean_nil : stepsClean [] := fun s hs => absurd hs (List.not_mem_nil s)

theorem stepsClean_cons {x : Step} {A : List Step} (hx : cleanM x.matrix)
    (ha : stepsClean A) : stepsClean (x :: A) := by
  intro s hs
  rcases List.mem_cons.mp hs with rfl | hs
  · exact hx
  · exact ha s hs

theorem stepsClean_single {x : Step} (hx : cleanM x.matrix) : stepsClean [x] :=
  stepsClean_cons hx stepsClean_nil

theorem stepsClean_one (m : Mat) (op : Option MOp) (hm : cleanM m) :
    stepsClean [⟨m, op⟩] :=
  stepsClean_cons hm stepsClean_nil

theorem stepsClean_append {A B : List Step} (ha : stepsClean A) (hb : stepsClean B) :
    stepsClean (A ++ B) := by
  intro s hs
  rcases List.mem_append.mp hs with hs | hs
  · exact ha s hs
  · exact hb s hs

theorem stepsClean_ite {c : Prop} [Decidable c] {A B : List Step}
    (ha : stepsClean A) (hb : stepsClean B) : stepsClean (if c then A else B) := by
  split
  · exact ha
  · exact hb

theorem clean_geColScaleElim {M1 : Mat} (h : cleanM M1) (currentRow col n : Nat) :
    cleanM (geColScaleElim M1 currentRow col n).1 ∧
    stepsClean (geColScaleElim M1 currentRow col n).2.1 := by
  have h2 : cleanM (if tol < |entry M1 currentRow col - 1|
      then cleanMatrix (multiplyRow M1 currentRow (1 / entry M1 currentRow col)) else M1) := by
    split
    · exact cleanM_cleanMatrix _
    · exact h
  rcases clean_geElimBelow currentRow col
    (List.range' (currentRow + 1) (n - (currentRow + 1))) _ h2 with ⟨he1, he2⟩
  simp only [geColScaleElim]
  exact ⟨he1, stepsClean_append (stepsClean_ite (stepsClean_single h2) stepsClean_nil)
    (stepsClean_ite (stepsClean_single he1) he2)⟩

theorem clean_geColStep {M : Mat} (h : cleanM M) (currentRow col n : Nat) :
    cleanM (geColStep M currentRow col n).mat ∧
    stepsClean (geColStep M currentRow col n).steps := by
  simp only [geColStep]
  split
  · exact ⟨h, stepsClean_cons h (stepsClean_single h)⟩
  · have h1 : cleanM (if findPivot M col currentRow n ≠ currentRow
        then swapRows M currentRow (findPivot M col currentRow n) else M) := by
      split
      · exact cleanM_swapRows h _ _
      · exact h
    rcases clean_geColScaleElim h1 currentRow col n with ⟨hb1, hb2⟩
    exact ⟨hb1, stepsClean_cons h (stepsClean_append
      (stepsClean_ite (stepsClean_single h1) stepsClean_nil) hb2)⟩

theorem clean_geLoop (n : Nat) :
    ∀ (cols : List Nat) (M : Mat) (currentRow : Nat), cleanM M →
      cleanM (geLoop n M currentRow cols).mat ∧
      stepsClean (geLoop n M currentRow cols).steps := by
  intro cols
  induction cols with
  | nil => intro M c h; exact ⟨h, stepsClean_nil⟩
  | cons col rest ih =>
    intro M currentRow h
    simp only [geLoop]
    split
    · exact ⟨h, stepsClean_nil⟩
    · rcases clean_geColStep h currentRow col n with ⟨h1, h2⟩
      rcases ih _ _ h1 with ⟨h3, h4⟩
      exact ⟨h3, stepsClean_append h2 h4⟩

theorem clean_backSubstAux (M : Mat) (n m : Nat) (h : cleanM M) :
    ∀ (k : Nat) (sol : List ℚ), stepsClean (backSubstAux M n m k sol).2 := by
  intro k
  induction k with
  | zero => intro sol; exact stepsClean_nil
  | succ i ih =>
    intro sol
    simp only [backSubstAux]
    exact stepsClean_cons h (ih _)

theorem clean_geRun (input : Mat) :
    cleanM (geRun input).mat ∧ stepsClean (geRun input).steps := by
  simp only [geRun]
  exact clean_geLoop _ _ _ _ (cleanM_cleanMatrix input)

theorem clean_gaussianElimination (input : Mat) :
    stepsClean (gaussianElimination input).steps ∧
    cleanM (gaussianElimination input).result.finalMatrix := by
  have hrun := clean_geRun input
  simp only [gaussianElimination]
  split
  · exact ⟨stepsClean_append (stepsClean_append
      (stepsClean_cons (cleanM_cleanMatrix input)
        (stepsClean_append hrun.2 (stepsClean_single hrun.1)))
      (stepsClean_single hrun.1)) (clean_backSubstAux _ _ _ hrun.1 _ _), hrun.1⟩
  · exact ⟨stepsClean_cons (cleanM_cleanMatrix input)
      (stepsClean_append hrun.2 (stepsClean_single hrun.1)), hrun.1⟩

theorem clean_gjElim (row lead : Nat) :
    ∀ (is : List Nat) (M : Mat), cleanM M →
      cleanM (gjElim M row lead is).mat ∧ stepsClean (gjElim M row lead is).steps := by
  intro is
  induction is with
  | nil => intro M h; exact ⟨h, stepsClean_nil⟩
  | cons i rest ih =>
    intro M h
    simp only [gjElim]
    split
    · exact ih M h
    · split
      · rcases ih (cleanMatrix (addRows M i row (-entry M i lead))) (cleanM_cleanMatrix _)
          with ⟨h1, h2⟩
        exact ⟨h1, stepsClean_cons (cleanM_cleanMatrix _) h2⟩
      · exact ih M h

theorem clean_gjRowBody {M : Mat} (h : cleanM M) (n row r l : Nat) :
    cleanM (gjRowBody M n row r l).1 ∧ stepsClean (gjRowBody M n row r l).2.2.1 := by
  simp only [gjRowBody]
  generalize hM1 : (if r ≠ row then swapRows M row r else M) = M1
  have h1 : cleanM M1 := by
    rw [← hM1]
    split
    · exact cleanM_swapRows h _ _
    · exact h
  generalize hM2 : (if (decide (tol < |entry M1 row l|) &&
      decide (tol < |entry M1 row l - 1|)) = true
      then cleanMatrix (multiplyRow M1 row (1 / entry M1 row l)) else M1) = M2
  have h2 : cleanM M2 := by
    rw [← hM2]
    split
    · exact cleanM_cleanMatrix _
    · exact h1
  rcases clean_gjElim row l (List.range n) M2 h2 with ⟨he1, he2⟩
  exact ⟨he1, stepsClean_append (stepsClean_append
    (stepsClean_ite (stepsClean_one _ _ h1) stepsClean_nil)
    (stepsClean_ite (stepsClean_one _ _ h2) stepsClean_nil)) he2⟩

theorem clean_gjLoop (n m : Nat) :
    ∀ (rows : List Nat) (M : Mat) (lead : Nat), cleanM M →
      cleanM (gjLoop n m M lead rows).mat ∧ stepsClean (gjLoop n m M lead rows).steps := by
  intro rows
  induction rows with
  | nil => intro M lead h; exact ⟨h, stepsClean_nil⟩
  | cons row rest ih =>
    intro M lead h
    simp only [gjLoop]
    split
    · exact ⟨h, stepsClean_nil⟩
    · rcases hfp : gjFindPivot M n row (List.range' lead (m - lead)) with _ | rl
      · exact ⟨h, stepsClean_single h⟩
      · rcases clean_gjRowBody h n row rl.1 rl.2 with ⟨hb1, hb2⟩
        rcases ih (gjRowBody M n row rl.1 rl.2).1 (gjRowBody M n row rl.1 rl.2).2.1 hb1
          with ⟨h3, h4⟩
        exact ⟨h3, stepsClean_cons h (stepsClean_append hb2 h4)⟩

theorem clean_gaussJordan (input : Mat) :
    stepsClean (gaussJordan input).steps ∧
    cleanM (gaussJordan input).result.finalMatrix := by
  rcases clean_gjLoop (cleanMatrix input).length ((cleanMatrix input).getD 0 []).length
    (List.range (cleanMatrix input).length) (cleanMatrix input) 0 (cleanM_cleanMatrix input)
    with ⟨h1, h2⟩
  simp only [gaussJordan]
  split
  · exact ⟨stepsClean_append (stepsClean_cons (cleanM_cleanMatrix input)
      (stepsClean_append h2 (stepsClean_single h1))) (stepsClean_single h1), h1⟩
  · exact ⟨stepsClean_cons (cleanM_cleanMatrix input)
      (stepsClean_append h2 (stepsClean_single h1)), h1⟩

theorem clean_detElimBelow (col : Nat) (pivot : ℚ) :
    ∀ (rows : List Nat) (M : Mat), cleanM M →
      cleanM (detElimBelow M col pivot rows).1 ∧
      stepsClean (detElimBelow M col pivot rows).2.1 := by
  intro rows
  induction rows with
  | nil => intro M h; exact ⟨h, stepsClean_nil⟩
  | cons row rest ih =>
    intro M h
    simp only [detElimBelow]
    split
    · rcases ih (cleanMatrix (addRows M row col (-(entry M row col / pivot))))
        (cleanM_cleanMatrix _) with ⟨h1, h2⟩
      exact ⟨h1, stepsClean_cons (cleanM_cleanMatrix _) h2⟩
    · exact ih M h

theorem clean_detColStep {M : Mat} (h : cleanM M) {col n : Nat} {c : DetColRes}
    (hc : detColStep M col n = some c) :
    cleanM c.mat ∧ stepsClean c.steps := by
  simp only [detColStep] at hc
  split at hc
  · cases hc
  · have h1 : cleanM (if findPivot M col col n ≠ col
        then swapRows M col (findPivot M col col n) else M) := by
      split
      · exact cleanM_swapRows h _ _
      · exact h
    rcases clean_detElimBelow col
      (entry (if findPivot M col col n ≠ col then swapRows M col (findPivot M col col n) else M)
        col col)
      (List.range' (col + 1) (n - (col + 1))) _ h1 with ⟨he1, he2⟩
    injection hc with hc
    rw [← hc]
    exact ⟨he1, stepsClean_append
      (stepsClean_append (stepsClean_ite (stepsClean_single h1) stepsClean_nil)
        (stepsClean_single h1)) he2⟩

theorem clean_detLoop (n : Nat) :
    ∀ (cols : List Nat) (M : Mat) (det : ℚ) (swaps : Nat), cleanM M →
      cleanM (detLoop n M det swaps cols).mat ∧
      stepsClean (detLoop n M det swaps cols).steps := by
  intro cols
  induction cols with
  | nil => intro M det swaps h; exact ⟨h, stepsClean_nil⟩
  | cons col rest ih =>
    intro M det swaps h
    simp only [detLoop]
    rcases hc : detColStep M col n with _ | c
    · exact ⟨h, stepsClean_cons h (stepsClean_single h)⟩
    · rcases clean_detColStep h hc with ⟨h1, h2⟩
      rcases ih _ _ _ h1 with ⟨h3, h4⟩
      exact ⟨h3, stepsClean_cons h (stepsClean_append h2 h4)⟩

theorem clean_calculateDeterminant (input : Mat) :
    stepsClean (calculateDeterminant input).steps ∧
    cleanM (calculateDeterminant input).result.finalMatrix := by
  simp only [calculateDeterminant]
  split
  · exact ⟨stepsClean_single (cleanM_cleanMatrix input), cleanM_cleanMatrix input⟩
  · rcases clean_detLoop (cleanMatrix input).length (List.range (cleanMatrix input).length)
      (cleanMatrix input) 1 0 (cleanM_cleanMatrix input) with ⟨h1, h2⟩
    split
    · exact ⟨stepsClean_cons (cleanM_cleanMatrix input) h2, h1⟩
    · exact ⟨stepsClean_cons (cleanM_cleanMatrix input)
        (stepsClean_append h2 (stepsClean_single h1)), h1⟩

/-- C5 amended: every matrix stored by `gaussianElimination`, `gaussJordan`
and `calculateDeterminant` (all steps, all final matrices) is clean - each
entry is exactly 0 or of magnitude at least the tolerance; for
`calculateInverse` on a square input the same holds for all steps after the
first and for the final matrix.  (The first inverse step stores the raw
augmented matrix, and the non-square inverse path stores the raw input - the
counterexample.) -/
theorem clean_invariant_amended (input : Mat) :
    stepsClean (gaussianElimination input).steps ∧
    cleanM (gaussianElimination input).result.finalMatrix ∧
    stepsClean (gaussJordan input).steps ∧
    cleanM (gaussJordan input).result.finalMatrix ∧
    stepsClean (calculateDeterminant input).steps ∧
    cleanM (calculateDeterminant input).result.finalMatrix ∧
    (input.length = (input.getD 0 []).length →
      stepsClean (calculateInverse input).steps.tail ∧
      cleanM (calculateInverse input).result.finalMatrix) := by
  rcases clean_gaussianElimination input with ⟨g1, g2⟩
  rcases clean_gaussJordan input with ⟨j1, j2⟩
  rcases clean_calculateDeterminant input with ⟨d1, d2⟩
  refine ⟨g1, g2, j1, j2, d1, d2, fun hsq => ?_⟩
  rcases clean_gaussJordan (augmentId input) with ⟨a1, a2⟩
  simp only [calculateInverse]
  rw [if_neg (by omega)]
  split
  · exact ⟨by
      simp only [List.tail_cons]
      exact stepsClean_append a1 (stepsClean_single (cleanM_map_drop a2 input.length)),
      cleanM_map_drop a2 input.length⟩
  · exact ⟨by
      simp only [List.tail_cons]
      exact stepsClean_append a1 (stepsClean_single a2), a2⟩

/-- Witness for `clean_invariant_amended` at the square input `[[2]]`. -/
theorem clean_invariant_amended_witness :
    stepsClean (gaussianElimination [[2]]).steps ∧
    cleanM (gaussianElimination [[2]]).result.finalMatrix ∧
    stepsClean (gaussJordan [[2]]).steps ∧
    cleanM (gaussJordan [[2]]).result.finalMatrix ∧
    stepsClean (calculateDeterminant [[2]]).steps ∧
    cleanM (calculateDeterminant [[2]]).result.finalMatrix ∧
    (stepsClean (calculateInverse [[2]]).steps.tail ∧
     cleanM (calculateInverse [[2]]).result.finalMatrix) := by
  have h := clean_invariant_amended [[2]]
  exact ⟨h.1, h.2.1, h.2.2.1, h.2.2.2.1, h.2.2.2.2.1, h.2.2.2.2.2.1,
    h.2.2.2.2.2.2 rfl⟩

/-!  ## C4: the singular inverse path returns the full augmented matrix  -/

theorem all_enum_iff {α : Type _} (f : Nat × α → Bool) (l : List α) :
    l.enum.all f = true ↔ ∀ i, (h : i < l.length) → f (i, l[i]) = true := by
  rw [List.all_eq_true]
  constructor
  · intro hh i hi
    exact hh (i, l[i]) (by rw [List.mem_enum_iff_getElem?]; simp [hi])
  · rintro hh ⟨i, v⟩ hm
    rw [List.mem_enum_iff_getElem?] at hm
    have hi : i < l.length := by
      by_contra hcon
      rw [List.getElem?_eq_none (by omega)] at hm
      cases hm
    have hv : v = l[i] := by
      rw [List.getElem?_eq_getElem hi] at hm
      injection hm with hm
      rw [hm]
    subst hv
    exact hh i hi

theorem invIsIdentity_iff (M : Mat) (n : Nat) :
    invIsIdentity M n = true ↔
      ∀ i, i < M.length → ∀ j, j < min n (M.getD i []).length →
        |entry M i j - (if i = j then 1 else 0)| < tol := by
  unfold invIsIdentity
  rw [all_enum_iff]
  constructor
  · intro h i hi j hj
    have h1 := h i hi
    dsimp only at h1
    rw [all_enum_iff] at h1
    have hrow : M.getD i [] = M[i] := List.getD_eq_getElem M [] hi
    rw [hrow] at hj
    have hjt : j < ((M[i]).take n).length := by simpa using hj
    have hjlen : j < (M[i]).length := by omega
    have h2 := h1 j hjt
    dsimp only at h2
    have htake : ((M[i]).take n)[j] = (M[i])[j] := List.getElem_take _
    rw [htake] at h2
    have hent : entry M i j = (M[i])[j] := by
      unfold entry
      rw [hrow, List.getD_eq_getElem _ 0 hjlen]
    rw [hent]
    exact of_decide_eq_true h2
  · intro h i hi
    dsimp only
    rw [all_enum_iff]
    intro j hj
    have hrow : M.getD i [] = M[i] := List.getD_eq_getElem M [] hi
    have hjlen : j < (M[i]).length := by
      have := hj
      simp only [List.length_take] at this
      omega
    have hj2 : j < min n (M.getD i []).length := by
      rw [hrow]
      simpa using hj
    have h2 := h i hi j hj2
    have htake : ((M[i]).take n)[j] = (M[i])[j] := List.getElem_take _
    dsimp only
    rw [htake]
    have hent : entry M i j = (M[i])[j] := by
      unfold entry
      rw [hrow, List.getD_eq_getElem _ 0 hjlen]
    rw [hent] at h2
    exact decide_eq_true h2

theorem gaussJordan_finalMatrix (input : Mat) :
    (gaussJordan input).result.finalMatrix =
      (gjLoop (cleanMatrix input).length ((cleanMatrix input).getD 0 []).length
        (cleanMatrix input) 0 (List.range (cleanMatrix input).length)).mat := by
  simp only [gaussJordan]
  split <;> rfl

theorem rect_gaussJordan {input : Mat} {n m : Nat} (hn : 0 < n) (h : rect input n m) :
    rect (gaussJordan input).result.finalMatrix n m := by
  rw [gaussJordan_finalMatrix]
  have hrc := rect_cleanMatrix h
  have h1 : (cleanMatrix input).length = n := hrc.1
  have h2 : ((cleanMatrix input).getD 0 []).length = m := rect_rowLen hrc hn
  rw [h1, h2]
  exact rect_gjLoop _ _ _ hrc (fun r hr => List.mem_range.mp hr)

theorem rect_augmentId {input : Mat} {n : Nat} (h : rect input n n) :
    rect (augmentId input) n (2 * n) := by
  constructor
  · simp [augmentId, h.1]
  · intro row hrow
    simp only [augmentId, List.mem_map] at hrow
    obtain ⟨p, hp, rfl⟩ := hrow
    have hmem : p.2 ∈ input := by
      rw [List.mem_enum_iff_getElem?] at hp
      exact List.getElem?_mem hp
    simp [h.2 p.2 hmem, h.1, two_mul]

/-- C4 amended: on a square `n x n` input whose Gauss-Jordan reduction of
`[A | I]` fails the identity check, `calculateInverse` returns as
`finalMatrix` the full reduced augmented matrix - `n` rows of length `2n`,
not an `n x n` left half - whose left `n` columns are not within tolerance of
the identity, and the result carries no solution and no determinant field. -/
theorem inverse_singular_amended (input : Mat) (n : Nat) (hn : 0 < n)
    (h : rect input n n)
    (hfail : invIsIdentity (gaussJordan (augmentId input)).result.finalMatrix input.length
      = false) :
    (calculateInverse input).result.finalMatrix
      = (gaussJordan (augmentId input)).result.finalMatrix ∧
    rect (calculateInverse input).result.finalMatrix n (2 * n) ∧
    ¬ (∀ i, i < n → ∀ j, j < n →
        |entry (calculateInverse input).result.finalMatrix i j -
          (if i = j then 1 else 0)| < tol) ∧
    (calculateInverse input).result.solution = none ∧
    (calculateInverse input).result.determinant = none := by
  have hw : (input.getD 0 []).length = input.length := by
    rw [h.1]; exact rect_rowLen h hn
  have hrectFin : rect (gaussJordan (augmentId input)).result.finalMatrix n (2 * n) :=
    rect_gaussJordan hn (rect_augmentId h)
  have heq : (calculateInverse input).result.finalMatrix
      = (gaussJordan (augmentId input)).result.finalMatrix := by
    simp only [calculateInverse]
    rw [if_neg (by omega), if_neg (by rw [hfail]; simp)]
  refine ⟨heq, heq ▸ hrectFin, ?_, ?_, ?_⟩
  · rw [heq]
    intro hall
    have : invIsIdentity (gaussJordan (augmentId input)).result.finalMatrix input.length
        = true := by
      rw [invIsIdentity_iff]
      intro i hi j hj
      rw [hrectFin.1] at hi
      have hjn : j < n := by
        have := rect_rowLen hrectFin hi
        rw [this] at hj
        rw [h.1] at hj
        omega
      exact hall i hi j hjn
    rw [this] at hfail
    cases hfail
  · simp only [calculateInverse]
    rw [if_neg (by omega), if_neg (by rw [hfail]; simp)]
  · simp only [calculateInverse]
    rw [if_neg (by omega), if_neg (by rw [hfail]; simp)]

/-- Witness for `inverse_singular_amended` at the singular input `[[0]]`. -/
theorem inverse_singular_amended_witness :
    0 < 1 ∧ rect [[0]] 1 1 ∧
    invIsIdentity (gaussJordan (augmentId [[0]])).result.finalMatrix
      ([[(0 : ℚ)]] : Mat).length = false ∧
    ((calculateInverse [[0]]).result.finalMatrix
      = (gaussJordan (augmentId [[0]])).result.finalMatrix ∧
     rect (calculateInverse [[0]]).result.finalMatrix 1 (2 * 1) ∧
     ¬ (∀ i, i < 1 → ∀ j, j < 1 →
         |entry (calculateInverse [[0]]).result.finalMatrix i j -
           (if i = j then 1 else 0)| < tol) ∧
     (calculateInverse [[0]]).result.solution = none ∧
     (calculateInverse [[0]]).result.determinant = none) := by
  have hfail : invIsIdentity (gaussJordan (augmentId [[0]])).result.finalMatrix
      ([[(0 : ℚ)]] : Mat).length = false := by
    norm_num [augmentId, invIsIdentity, gaussJordan, gjLoop, gjFindPivot, gjRowBody, gjElim,
      entry, swapRows, multiplyRow, addRows, addRowsVec, cleanMatrix, cleanNumber, tol,
      abs_div, abs_neg, abs_one, abs_zero, abs_pow, List.range_succ, List.range'_succ,
      List.find?, List.enum, List.enumFrom]
  exact ⟨Nat.zero_lt_one, by simp [rect], hfail,
    inverse_singular_amended [[0]] 1 Nat.zero_lt_one (by simp [rect]) hfail⟩

/-!  ## C10: below-diagonal zeros in the determinant's final matrix  -/

theorem tol_pos : (0 : ℚ) < tol := by norm_num [tol]

theorem cleanNumber_of_cleanQ {q : ℚ} (h : cleanQ q) : cleanNumber q = q := by
  rcases h with rfl | h
  · exact cleanNumber_zero
  · unfold cleanNumber
    rw [if_neg (not_lt.mpr h)]

theorem entry_elimStep (M : Mat) (t s : Nat) (k : ℚ) (i j : Nat) :
    entry (cleanMatrix (addRows M t s k)) i j =
      cleanNumber (if i = t ∧ t < M.length ∧ j < (M.getD t []).length
        then entry M t j + k * entry M s j else entry M i j) := by
  rw [entry_cleanMatrix, entry_addRows]

theorem detElimBelow_zeroes {n col : Nat} (pivot : ℚ) (hp : pivot ≠ 0) :
    ∀ (rows : List Nat) (M : Mat), rect M n n → cleanM M →
      rows.Nodup → (∀ r ∈ rows, col < r ∧ r < n) → col < n →
      entry M col col = pivot →
      (∀ j, j < col → entry M col j = 0) →
      (∀ i j, j < col → j < i → i < n → entry M i j = 0) →
      (detElimBelow M col pivot rows).2.2 = true →
      (∀ i j, j < col → j < i → i < n → entry (detElimBelow M col pivot rows).1 i j = 0) ∧
      (∀ r ∈ rows, entry (detElimBelow M col pivot rows).1 r col = 0) ∧
      (∀ i, i ∉ rows → ∀ j, entry (detElimBelow M col pivot rows).1 i j = entry M i j) := by
  intro rows
  induction rows with
  | nil =>
    intro M hrect hclean hnd hb hcol hpiv hsrc hJ hok
    exact ⟨hJ, fun r hr => absurd hr (List.not_mem_nil r), fun i _ j => rfl⟩
  | cons row rest ih =>
    intro M hrect hclean hnd hb hcol hpiv hsrc hJ hok
    have hrow : col < row ∧ row < n := hb row (List.mem_cons_self _ _)
    have hlen : M.length = n := hrect.1
    have hrlen : (M.getD row []).length = n := rect_rowLen hrect hrow.2
    by_cases hf : tol < |entry M row col / pivot|
    · -- elimination performed
      simp only [detElimBelow, if_pos hf] at hok ⊢
      set f := entry M row col / pivot with hfdef
      set M2 := cleanMatrix (addRows M row col (-f)) with hM2
      have hrect2 : rect M2 n n :=
        rect_cleanMatrix (rect_addRows hrect hrow.2 _ _)
      have hclean2 : cleanM M2 := cleanM_cleanMatrix _
      have hent2 : ∀ i j, entry M2 i j =
          cleanNumber (if i = row ∧ row < M.length ∧ j < (M.getD row []).length
            then entry M row j + (-f) * entry M col j else entry M i j) := by
        intro i j
        rw [hM2, entry_elimStep]
      have hunch : ∀ i j, i ≠ row → entry M2 i j = entry M i j := by
        intro i j hi
        rw [hent2, if_neg (by tauto)]
        exact cleanNumber_of_cleanQ (cleanM_entry hclean i j)
      have hrowleft : ∀ j, j < col → entry M2 row j = 0 := by
        intro j hj
        rw [hent2, if_pos ⟨rfl, by omega, by omega⟩,
          hJ row j hj (by omega) hrow.2, hsrc j hj]
        simpa using cleanNumber_zero
      have hrowcol : entry M2 row col = 0 := by
        rw [hent2, if_pos ⟨rfl, by omega, by omega⟩, hpiv, hfdef]
        have : entry M row col + -(entry M row col / pivot) * pivot = 0 := by
          field_simp
        rw [this]
        exact cleanNumber_zero
      have hpiv2 : entry M2 col col = pivot := by
        rw [hunch col col (by omega)]
        exact hpiv
      have hsrc2 : ∀ j, j < col → entry M2 col j = 0 := by
        intro j hj
        rw [hunch col j (by omega)]
        exact hsrc j hj
      have hJ2 : ∀ i j, j < col → j < i → i < n → entry M2 i j = 0 := by
        intro i j hj hji hi
        by_cases hir : i = row
        · subst hir
          exact hrowleft j hj
        · rw [hunch i j hir]
          exact hJ i j hj hji hi
      rcases ih M2 hrect2 hclean2 (List.Nodup.of_cons hnd)
        (fun r hr => hb r (List.mem_cons_of_mem _ hr)) hcol hpiv2 hsrc2 hJ2 hok
        with ⟨ih1, ih2, ih3⟩
      have hrownotin : row ∉ rest := (List.nodup_cons.mp hnd).1
      refine ⟨ih1, ?_, ?_⟩
      · intro r hr
        rcases List.mem_cons.mp hr with rfl | hr
        · rw [ih3 r hrownotin col]
          exact hrowcol
        · exact ih2 r hr
      · intro i hi j
        have hirest : i ∉ rest := fun hc => hi (List.mem_cons_of_mem _ hc)
        have hirow : i ≠ row := fun hc => hi (hc ▸ List.mem_cons_self _ _)
        rw [ih3 i hirest j, hunch i j hirow]
    · -- elimination skipped: the ghost flag forces the factor to be exactly 0
      simp only [detElimBelow, if_neg hf] at hok ⊢
      rw [Bool.and_eq_true] at hok
      have hf0 : entry M row col / pivot = 0 := of_decide_eq_true hok.1
      have he0 : entry M row col = 0 := by
        rcases div_eq_zero_iff.mp hf0 with h0 | h0
        · exact h0
        · exact absurd h0 hp
      rcases ih M hrect hclean (List.Nodup.of_cons hnd)
        (fun r hr => hb r (List.mem_cons_of_mem _ hr)) hcol hpiv hsrc hJ hok.2
        with ⟨ih1, ih2, ih3⟩
      have hrownotin : row ∉ rest := (List.nodup_cons.mp hnd).1
      refine ⟨ih1, ?_, ?_⟩
      · intro r hr
        rcases List.mem_cons.mp hr with rfl | hr
        · rw [ih3 r hrownotin col]
          exact he0
        · exact ih2 r hr
      · intro i hi j
        exact ih3 i (fun hc => hi (List.mem_cons_of_mem _ hc)) j

theorem detColStep_zeroes {n col : Nat} {M : Mat} {c : DetColRes}
    (hrect : rect M n n) (hclean : cleanM M) (hcol : col < n)
    (hJ : ∀ i j, j < col → j < i → i < n → entry M i j = 0)
    (hc : detColStep M col n = some c) (hok : c.ok = true) :
    rect c.mat n n ∧ cleanM c.mat ∧
    (∀ i j, j < col + 1 → j < i → i < n → entry c.mat i j = 0) := by
  have hlen : M.length = n := hrect.1
  have hpb := findPivot_bound M col col n hcol
  simp only [detColStep] at hc
  split at hc
  · cases hc
  · rename_i hnz
    injection hc with hc
    subst hc
    dsimp only at hok ⊢
    generalize hM1 : (if findPivot M col col n ≠ col
      then swapRows M col (findPivot M col col n) else M) = M1 at hok ⊢
    have hrect1 : rect M1 n n := by
      rw [← hM1]
      split
      · exact rect_swapRows hrect hcol hpb.2
      · exact hrect
    have hclean1 : cleanM M1 := by
      rw [← hM1]
      split
      · exact cleanM_swapRows hclean _ _
      · exact hclean
    have hent1 : ∀ i j, entry M1 i j =
        if i = findPivot M col col n then entry M col j
        else if i = col then entry M (findPivot M col col n) j else entry M i j := by
      intro i j
      rw [← hM1]
      split
      · exact entry_swapRows M col (findPivot M col col n) (by omega) (by omega) i j
      · rename_i hne
        have hpc : findPivot M col col n = col := by omega
        rw [hpc]
        by_cases hic : i = col
        · subst hic
          rw [if_pos rfl]
        · rw [if_neg hic, if_neg hic]
    have hpiv1 : entry M1 col col = entry M (findPivot M col col n) col := by
      rw [hent1]
      by_cases hpc : col = findPivot M col col n
      · rw [if_pos hpc, ← hpc]
      · rw [if_neg hpc, if_pos rfl]
    have hJ1 : ∀ i j, j < col → j < i → i < n → entry M1 i j = 0 := by
      intro i j hj hji hi
      rw [hent1]
      split
      · exact hJ col j hj (by omega) hcol
      · split
        · exact hJ (findPivot M col col n) j hj (by omega) hpb.2
        · exact hJ i j hj hji hi
    have hsrc1 : ∀ j, j < col → entry M1 col j = 0 := by
      intro j hj
      exact hJ1 col j hj (by omega) hcol
    have hpivne : entry M1 col col ≠ 0 := by
      rw [hpiv1]
      intro h0
      rw [h0] at hnz
      simp [tol_pos] at hnz
    rcases detElimBelow_zeroes (entry M1 col col) hpivne
      (List.range' (col + 1) (n - (col + 1))) M1 hrect1 hclean1
      (List.nodup_range' _ _)
      (fun r hr => by rcases List.mem_range'_1.mp hr with ⟨h1, h2⟩; omega)
      hcol rfl hsrc1 hJ1 hok
      with ⟨z1, z2, z3⟩
    refine ⟨?_, ?_, ?_⟩
    · exact rect_detElimBelow hcol _ _ _ hrect1
        (fun k hk => by rcases List.mem_range'_1.mp hk with ⟨h1k, h2k⟩; omega)
    · exact (clean_detElimBelow col _ _ _ hclean1).1
    · intro i j hj hji hi
      rcases Nat.lt_or_ge j col with hjc | hjc
      · exact z1 i j hjc hji hi
      · have hjcol : j = col := by omega
        subst hjcol
        exact z2 i (List.mem_range'_1.mpr ⟨by omega, by omega⟩)

theorem detLoop_below_diag {n : Nat} :
    ∀ (k c : Nat) (M : Mat) (det : ℚ) (swaps : Nat), c + k = n →
      rect M n n → cleanM M →
      (∀ i j, j < c → j < i → i < n → entry M i j = 0) →
      (detLoop n M det swaps (List.range' c k)).early = false →
      (detLoop n M det swaps (List.range' c k)).ok = true →
      ∀ i j, j < i → i < n →
        entry (detLoop n M det swaps (List.range' c k)).mat i j = 0 := by
  intro k
  induction k with
  | zero =>
    intro c M det swaps hck hrect hclean hJ hearly hok i j hji hi
    simp only [List.range', detLoop]
    exact hJ i j (by omega) hji hi
  | succ kk ih =>
    intro c M det swaps hck hrect hclean hJ hearly hok i j hji hi
    rw [List.range'_succ] at hearly hok ⊢
    simp only [detLoop] at hearly hok ⊢
    rcases hc : detColStep M c n with _ | cres
    · rw [hc] at hearly
      simp [Option.elim] at hearly
    · rw [hc] at hearly hok
      simp only [Option.elim] at hearly hok ⊢
      rw [Bool.and_eq_true] at hok
      rcases detColStep_zeroes hrect hclean (by omega) hJ hc hok.1 with ⟨r1, r2, r3⟩
      exact ih (c + 1) cres.mat _ _ (by omega) r1 r2 r3 hearly hok.2 i j hji hi

/-- No recorded step of the determinant loop carries the `multiply` tag. -/
def stepsNoMul (A : List Step) : Prop := ∀ s ∈ A, s.operation ≠ some MOp.multiply

theorem stepsNoMul_nil : stepsNoMul [] := fun s hs => absurd hs (List.not_mem_nil s)

theorem stepsNoMul_cons {x : Step} {A : List Step} (hx : x.operation ≠ some MOp.multiply)
    (ha : stepsNoMul A) : stepsNoMul (x :: A) := by
  intro s hs
  rcases List.mem_cons.mp hs with rfl | hs
  · exact hx
  · exact ha s hs

theorem stepsNoMul_append {A B : List Step} (ha : stepsNoMul A) (hb : stepsNoMul B) :
    stepsNoMul (A ++ B) := by
  intro s hs
  rcases List.mem_append.mp hs with hs | hs
  · exact ha s hs
  · exact hb s hs

theorem stepsNoMul_ite {c : Prop} [Decidable c] {A B : List Step}
    (ha : stepsNoMul A) (hb : stepsNoMul B) : stepsNoMul (if c then A else B) := by
  split
  · exact ha
  · exact hb

theorem noMul_detElimBelow (M : Mat) (col : Nat) (pivot : ℚ) :
    ∀ rows : List Nat, ∀ M : Mat, stepsNoMul (detElimBelow M col pivot rows).2.1 := by
  intro rows
  induction rows with
  | nil => intro M; exact stepsNoMul_nil
  | cons row rest ih =>
    intro M
    simp only [detElimBelow]
    split
    · exact stepsNoMul_cons (by simp) (ih _)
    · exact ih M

theorem noMul_detColStep {M : Mat} {col n : Nat} {c : DetColRes}
    (hc : detColStep M col n = some c) : stepsNoMul c.steps := by
  simp only [detColStep] at hc
  split at hc
  · cases hc
  · injection hc with hc
    rw [← hc]
    exact stepsNoMul_append (stepsNoMul_append
      (stepsNoMul_ite (stepsNoMul_cons (by simp) stepsNoMul_nil) stepsNoMul_nil)
      (stepsNoMul_cons (by simp) stepsNoMul_nil)) (noMul_detElimBelow M col _ _ _)

theorem noMul_detLoop (n : Nat) :
    ∀ (cols : List Nat) (M : Mat) (det : ℚ) (swaps : Nat),
      stepsNoMul (detLoop n M det swaps cols).steps := by
  intro cols
  induction cols with
  | nil => intro M det swaps; exact stepsNoMul_nil
  | cons col rest ih =>
    intro M det swaps
    simp only [detLoop]
    rcases hc : detColStep M col n with _ | c
    · exact stepsNoMul_cons (by simp) (stepsNoMul_cons (by simp) stepsNoMul_nil)
    · simp only [Option.elim]
      exact stepsNoMul_cons (by simp)
        (stepsNoMul_append (noMul_detColStep hc) (ih _ _ _))

/-- C10 amended: on a square `n x n` input whose determinant comes out nonzero
(and not `NaN`), provided every elimination the loop skipped had factor
exactly 0 (the ghost `detBoundaryFree` flag), every entry strictly below the
main diagonal of the final matrix is exactly 0; and - unconditionally by the
code's structure - no recorded step of `calculateDeterminant` carries the
`multiply` tag: pivots are never rescaled to 1. -/
theorem det_below_diagonal_amended (input : Mat) (n : Nat) (hn : 0 < n)
    (h : rect input n n) (d : ℚ)
    (hdet : (calculateDeterminant input).result.determinant = some (NumVal.val d))
    (hd : d ≠ 0) (hok : detBoundaryFree input = true) :
    (∀ i j, j < i → i < n →
      entry (calculateDeterminant input).result.finalMatrix i j = 0) ∧
    (∀ s ∈ (calculateDeterminant input).steps, s.operation ≠ some MOp.multiply) := by
  have hrc : rect (cleanMatrix input) n n := rect_cleanMatrix h
  have hlen : (cleanMatrix input).length = n := hrc.1
  have hwid : ((cleanMatrix input).getD 0 []).length = n := rect_rowLen hrc hn
  have hrange : List.range n = List.range' 0 n := List.range_eq_range' n
  have hearly : (detLoop n (cleanMatrix input) 1 0 (List.range' 0 n)).early = false := by
    by_contra hcon
    rw [Bool.not_eq_false] at hcon
    simp only [calculateDeterminant, hlen, hwid, ← hrange] at hdet
    rw [if_neg (by omega)] at hdet
    rw [hrange] at hdet
    rw [if_pos hcon] at hdet
    simp only [SolutionResult.determinant] at hdet
    injection hdet with hdet
    injection hdet with hdet
    exact hd hdet.symm
  have hloopok : (detLoop n (cleanMatrix input) 1 0 (List.range' 0 n)).ok = true := by
    have := hok
    unfold detBoundaryFree at this
    rw [hlen, hrange] at this
    exact this
  have hzero := detLoop_below_diag n 0 (cleanMatrix input) 1 0 (by omega) hrc
    (cleanM_cleanMatrix input) (fun i j hj _ _ => absurd hj (Nat.not_lt_zero j))
    hearly hloopok
  have hfin : (calculateDeterminant input).result.finalMatrix =
      (detLoop n (cleanMatrix input) 1 0 (List.range' 0 n)).mat := by
    simp only [calculateDeterminant, hlen, hwid, ← hrange]
    rw [if_neg (by omega)]
    rw [hrange]
    split <;> rfl
  constructor
  · intro i j hji hi
    rw [hfin]
    exact hzero i j hji hi
  · intro s hs
    have hsteps : (calculateDeterminant input).steps =
        ⟨cleanMatrix input, none⟩ ::
          (detLoop n (cleanMatrix input) 1 0 (List.range' 0 n)).steps ∨
        (calculateDeterminant input).steps =
        ⟨cleanMatrix input, none⟩ ::
          ((detLoop n (cleanMatrix input) 1 0 (List.range' 0 n)).steps ++
            [⟨(detLoop n (cleanMatrix input) 1 0 (List.range' 0 n)).mat, none⟩]) := by
      simp only [calculateDeterminant, hlen, hwid, ← hrange]
      rw [if_neg (by omega)]
      rw [hrange]
      split
      · exact Or.inl rfl
      · exact Or.inr rfl
    have hnm := noMul_detLoop n (List.range' 0 n) (cleanMatrix input) 1 0
    rcases hsteps with he | he <;> rw [he] at hs
    · exact stepsNoMul_cons (by simp) hnm s hs
    · exact stepsNoMul_cons (by simp) (stepsNoMul_append hnm
        (stepsNoMul_cons (by simp) stepsNoMul_nil)) s hs

/-- Witness for `det_below_diagonal_amended` at the input `[[2,1],[4,5]]`
(determinant 6, one swap, exact eliminations). -/
theorem det_below_diagonal_amended_witness :
    0 < 2 ∧ rect [[2, 1], [4, 5]] 2 2 ∧
    (calculateDeterminant [[2, 1], [4, 5]]).result.determinant = some (NumVal.val 6) ∧
    (6 : ℚ) ≠ 0 ∧ detBoundaryFree [[2, 1], [4, 5]] = true ∧
    ((∀ i j, j < i → i < 2 →
       entry (calculateDeterminant [[2, 1], [4, 5]]).result.finalMatrix i j = 0) ∧
     (∀ s ∈ (calculateDeterminant [[2, 1], [4, 5]]).steps,
       s.operation ≠ some MOp.multiply)) := by
  have h1 : (calculateDeterminant [[2, 1], [4, 5]]).result.determinant
      = some (NumVal.val 6) := by
    norm_num [calculateDeterminant, detLoop, detColStep, detElimBelow, Option.elim,
      findPivot, entry, swapRows, multiplyRow, addRows, addRowsVec, cleanMatrix,
      cleanNumber, tol, abs_div, abs_neg, abs_one, abs_zero, abs_pow,
      List.range_succ, List.range'_succ]
  have h2 : detBoundaryFree [[2, 1], [4, 5]] = true := by
    norm_num [detBoundaryFree, detLoop, detColStep, detElimBelow, Option.elim,
      findPivot, entry, swapRows, multiplyRow, addRows, addRowsVec, cleanMatrix,
      cleanNumber, tol, abs_div, abs_neg, abs_one, abs_zero, abs_pow,
      List.range_succ, List.range'_succ]
  exact ⟨by norm_num, by simp [rect], h1, by norm_num, h2,
    det_below_diagonal_amended [[2, 1], [4, 5]] 2 (by norm_num) (by simp [rect]) 6 h1
      (by norm_num) h2⟩

/-!  ## C2: row-echelon shape of the Gaussian-elimination result  -/

theorem clean_small_eq_zero {q : ℚ} (hc : cleanQ q) (hs : |q| < tol) : q = 0 := by
  rcases hc with rfl | h
  · rfl
  · exact absurd hs (not_lt.mpr h)

theorem cleanNumber_one : cleanNumber 1 = 1 := by
  unfold cleanNumber
  rw [if_neg]
  rw [not_lt]
  norm_num [tol]

theorem map_cleanNumber_of_clean {row : List ℚ} (h : ∀ q ∈ row, cleanQ q) :
    row.map cleanNumber = row := by
  induction row with
  | nil => rfl
  | cons x rest ih =>
    rw [List.map_cons, cleanNumber_of_cleanQ (h x (List.mem_cons_self _ _)),
      ih (fun q hq => h q (List.mem_cons_of_mem _ hq))]

theorem cleanMatrix_getD_eq {M : Mat} (i : Nat) (h : ∀ q ∈ M.getD i [], cleanQ q) :
    (cleanMatrix M).getD i [] = M.getD i [] := by
  unfold cleanMatrix
  rw [getD_map_nil _ rfl, map_cleanNumber_of_clean h]

theorem leadIdx_spec (row : List ℚ) (c : Nat) (h1 : ∀ j, j < c → row.getD j 0 = 0)
    (h2 : row.getD c 0 ≠ 0) : leadIdx row = c := by
  induction row generalizing c with
  | nil => simp [List.getD_nil] at h2
  | cons x rest ih =>
    cases c with
    | zero =>
      have hx : ¬x = 0 := by simpa using h2
      simp [leadIdx, hx]
    | succ cc =>
      have hx : x = 0 := by simpa using h1 0 (Nat.succ_pos cc)
      have hrest : leadIdx rest = cc :=
        ih cc (fun j hj => by simpa using h1 (j + 1) (by omega)) (by simpa using h2)
      simp [leadIdx, hx, hrest]

theorem geElimBelow_zeroes {n m c r : Nat} :
    ∀ (rows : List Nat) (M : Mat), rect M n m → cleanM M →
      rows.Nodup → (∀ ro ∈ rows, r < ro ∧ ro < n) → r < n → c < m →
      entry M r c = 1 →
      (∀ i j, r ≤ i → i < n → j < c → entry M i j = 0) →
      (geElimBelow M r c rows).2.2 = true →
      rect (geElimBelow M r c rows).1 n m ∧ cleanM (geElimBelow M r c rows).1 ∧
      (∀ i j, r ≤ i → i < n → j < c → entry (geElimBelow M r c rows).1 i j = 0) ∧
      (∀ ro ∈ rows, entry (geElimBelow M r c rows).1 ro c = 0) ∧
      (∀ i, i ∉ rows → (geElimBelow M r c rows).1.getD i [] = M.getD i []) := by
  intro rows
  induction rows with
  | nil =>
    intro M hrect hclean hnd hb hr hcm hpiv hJ hok
    exact ⟨hrect, hclean, hJ, fun ro hro => absurd hro (List.not_mem_nil ro),
      fun i _ => rfl⟩
  | cons row rest ih =>
    intro M hrect hclean hnd hb hr hcm hpiv hJ hok
    have hrow : r < row ∧ row < n := hb row (List.mem_cons_self _ _)
    have hlen : M.length = n := hrect.1
    have hrlen : (M.getD row []).length = m := rect_rowLen hrect hrow.2
    have hrownotin : row ∉ rest := (List.nodup_cons.mp hnd).1
    by_cases hf : tol < |entry M row c|
    · -- elimination performed
      simp only [geElimBelow, if_pos hf] at hok ⊢
      set M2 := cleanMatrix (addRows M row r (-entry M row c)) with hM2
      have hrect2 : rect M2 n m := rect_cleanMatrix (rect_addRows hrect hrow.2 _ _)
      have hclean2 : cleanM M2 := cleanM_cleanMatrix _
      have hent2 : ∀ i j, entry M2 i j =
          cleanNumber (if i = row ∧ row < M.length ∧ j < (M.getD row []).length
            then entry M row j + (-entry M row c) * entry M r j else entry M i j) := by
        intro i j
        rw [hM2, entry_elimStep]
      have hgetD2 : ∀ i, i ≠ row → M2.getD i [] = M.getD i [] := by
        intro i hi
        rw [hM2]
        unfold addRows
        rw [cleanMatrix_getD_eq i (by
          rw [getD_set_ne _ _ _ _ _ (fun hh => hi hh.symm)]
          exact cleanM_row hclean i)]
        exact getD_set_ne _ _ _ _ _ (fun hh => hi hh.symm)
      have hunch : ∀ i j, i ≠ row → entry M2 i j = entry M i j := by
        intro i j hi
        unfold entry
        rw [hgetD2 i hi]
      have hpiv2 : entry M2 r c = 1 := by
        rw [hunch r c (by omega)]
        exact hpiv
      have hJ2 : ∀ i j, r ≤ i → i < n → j < c → entry M2 i j = 0 := by
        intro i j hri hi hj
        by_cases hir : i = row
        · subst hir
          rw [hent2, if_pos ⟨rfl, by omega, by omega⟩,
            hJ i j hri hi hj, hJ r j (le_refl r) hr hj]
          simpa using cleanNumber_zero
        · rw [hunch i j hir]
          exact hJ i j hri hi hj
      have hrowc : entry M2 row c = 0 := by
        rw [hent2, if_pos ⟨rfl, by omega, by omega⟩, hpiv]
        have : entry M row c + -entry M row c * 1 = 0 := by ring
        rw [this]
        exact cleanNumber_zero
      rcases ih M2 hrect2 hclean2 (List.Nodup.of_cons hnd)
        (fun ro hro => hb ro (List.mem_cons_of_mem _ hro)) hr hcm hpiv2 hJ2 hok
        with ⟨i1, i2, i3, i4, i5⟩
      refine ⟨i1, i2, i3, ?_, ?_⟩
      · intro ro hro
        rcases List.mem_cons.mp hro with rfl | hro
        · rw [show entry (geElimBelow M2 r c rest).1 ro c = entry M2 ro c from by
            unfold entry; rw [i5 ro hrownotin]]
          exact hrowc
        · exact i4 ro hro
      · intro i hi
        have hirest : i ∉ rest := fun hcc => hi (List.mem_cons_of_mem _ hcc)
        have hirow : i ≠ row := fun hcc => hi (hcc ▸ List.mem_cons_self _ _)
        rw [i5 i hirest, hgetD2 i hirow]
    · -- skipped: ghost flag forces the entry to be exactly 0
      simp only [geElimBelow, if_neg hf] at hok ⊢
      rw [Bool.and_eq_true] at hok
      have he0 : entry M row c = 0 := of_decide_eq_true hok.1
      rcases ih M hrect hclean (List.Nodup.of_cons hnd)
        (fun ro hro => hb ro (List.mem_cons_of_mem _ hro)) hr hcm hpiv hJ hok.2
        with ⟨i1, i2, i3, i4, i5⟩
      refine ⟨i1, i2, i3, ?_, ?_⟩
      · intro ro hro
        rcases List.mem_cons.mp hro with rfl | hro
        · rw [show entry (geElimBelow M r c rest).1 ro c = entry M ro c from by
            unfold entry; rw [i5 ro hrownotin]]
          exact he0
        · exact i4 ro hro
      · intro i hi
        exact i5 i (fun hcc => hi (List.mem_cons_of_mem _ hcc))

theorem getD_swapRows_ne (M : Mat) (r1 r2 i : Nat) (h1 : i ≠ r1) (h2 : i ≠ r2) :
    (swapRows M r1 r2).getD i [] = M.getD i [] := by
  unfold swapRows
  rw [getD_set_ne _ _ _ _ _ (fun h => h2 h.symm), getD_set_ne _ _ _ _ _ (fun h => h1 h.symm)]

theorem getD_multiplyRow_ne (M : Mat) (r : Nat) (k : ℚ) (i : Nat) (h : i ≠ r) :
    (multiplyRow M r k).getD i [] = M.getD i [] := by
  unfold multiplyRow
  rw [getD_set_ne _ _ _ _ _ (fun hh => h hh.symm)]

/-- Invariant carried through the Gaussian-elimination column loop: shape and
cleanliness, the current row is in range, rows at or below the current row are
zero in every processed column, rows above it lead inside the processed
columns, and consecutive processed rows have strictly increasing lead
indices. -/
def GEInv (n m c r : Nat) (M : Mat) : Prop :=
  rect M n m ∧ cleanM M ∧ r ≤ n ∧
  (∀ i j, r ≤ i → i < n → j < c → entry M i j = 0) ∧
  (∀ i, i < r → leadIdx (M.getD i []) < c) ∧
  (∀ i, i + 1 < r → leadIdx (M.getD i []) < leadIdx (M.getD (i + 1) []))

theorem geColScaleElim_inv {n m c r : Nat} {M1 : Mat} (hc : c < m) (hr : r < n)
    (hrect : rect M1 n m) (hclean : cleanM M1)
    (hZ : ∀ i j, r ≤ i → i < n → j < c → entry M1 i j = 0)
    (hpv : tol ≤ |entry M1 r c|)
    (hok : (geColScaleElim M1 r c n).2.2 = true) :
    rect (geColScaleElim M1 r c n).1 n m ∧ cleanM (geColScaleElim M1 r c n).1 ∧
    (∀ i j, r ≤ i → i < n → j < c → entry (geColScaleElim M1 r c n).1 i j = 0) ∧
    (∀ i, r < i → i < n → entry (geColScaleElim M1 r c n).1 i c = 0) ∧
    entry (geColScaleElim M1 r c n).1 r c = 1 ∧
    (∀ i, i < r → (geColScaleElim M1 r c n).1.getD i [] = M1.getD i []) := by
  have hne : entry M1 r c ≠ 0 := by
    intro h0
    rw [h0, abs_zero] at hpv
    exact absurd hpv (not_le.mpr tol_pos)
  simp only [geColScaleElim] at hok ⊢
  rw [Bool.and_eq_true, Bool.or_eq_true] at hok
  generalize hM2 : (if tol < |entry M1 r c - 1|
      then cleanMatrix (multiplyRow M1 r (1 / entry M1 r c)) else M1) = M2 at hok ⊢
  have hfacts : rect M2 n m ∧ cleanM M2 ∧ entry M2 r c = 1 ∧
      (∀ i j, r ≤ i → i < n → j < c → entry M2 i j = 0) ∧
      (∀ i, i < r → M2.getD i [] = M1.getD i []) := by
    rw [← hM2]
    by_cases hsc : tol < |entry M1 r c - 1|
    · rw [if_pos hsc]
      refine ⟨rect_cleanMatrix (rect_multiplyRow hrect hr _), cleanM_cleanMatrix _, ?_, ?_, ?_⟩
      · rw [entry_cleanMatrix, entry_multiplyRow, if_pos ⟨rfl, hrect.1 ▸ hr⟩,
          mul_one_div, div_self hne]
        exact cleanNumber_one
      · intro i j hri hi hj
        rw [entry_cleanMatrix, entry_multiplyRow]
        split
        · rw [hZ i j hri hi hj, zero_mul]
          exact cleanNumber_zero
        · rw [hZ i j hri hi hj]
          exact cleanNumber_zero
      · intro i hi
        rw [cleanMatrix_getD_eq i (by
            rw [getD_multiplyRow_ne M1 r _ i (by omega)]
            exact cleanM_row hclean i),
          getD_multiplyRow_ne M1 r _ i (by omega)]
    · rw [if_neg hsc]
      have hp1 : entry M1 r c = 1 := by
        rcases hok.1 with h | h
        · exact absurd (of_decide_eq_true h) hsc
        · exact of_decide_eq_true h
      exact ⟨hrect, hclean, hp1, hZ, fun i _ => rfl⟩
  obtain ⟨hrect2, hclean2, hpiv2, hZ2, hgetD2⟩ := hfacts
  have hmemb : ∀ ro ∈ List.range' (r + 1) (n - (r + 1)), r < ro ∧ ro < n := by
    intro ro hro
    rcases List.mem_range'_1.mp hro with ⟨ha, hb⟩
    omega
  obtain ⟨i1, i2, i3, i4, i5⟩ := geElimBelow_zeroes (List.range' (r + 1) (n - (r + 1))) M2
    hrect2 hclean2 (List.nodup_range' _ _) hmemb hr hc hpiv2 hZ2 hok.2
  have hrnotin : r ∉ List.range' (r + 1) (n - (r + 1)) := by
    intro hmem
    rcases List.mem_range'_1.mp hmem with ⟨ha, _⟩
    omega
  refine ⟨i1, i2, i3, ?_, ?_, ?_⟩
  · intro i hri hi
    exact i4 i (List.mem_range'_1.mpr ⟨by omega, by omega⟩)
  · rw [show entry (geElimBelow M2 r c (List.range' (r + 1) (n - (r + 1)))).1 r c
        = entry M2 r c from by unfold entry; rw [i5 r hrnotin]]
    exact hpiv2
  · intro i hi
    rw [i5 i (fun hmem => by
        rcases List.mem_range'_1.mp hmem with ⟨ha, _⟩
        omega), hgetD2 i hi]

theorem geColStep_inv {n m c r : Nat} {M : Mat} (hc : c < m) (hr : r < n)
    (hinv : GEInv n m c r M) (hok : (geColStep M r c n).ok = true) :
    GEInv n m (c + 1) (geColStep M r c n).row (geColStep M r c n).mat := by
  obtain ⟨hrect, hclean, hrn, hZ, hL, hS⟩ := hinv
  obtain ⟨hp1, hp2⟩ := findPivot_bound M c r n hr
  simp only [geColStep] at hok ⊢
  by_cases hpv : |entry M (findPivot M c r n) c| < tol
  · rw [if_pos hpv]
    refine ⟨hrect, hclean, hrn, ?_, ?_, hS⟩
    · intro i j hri hi hj
      rcases Nat.lt_or_ge j c with hjc | hjc
      · exact hZ i j hri hi hjc
      · have hjc' : j = c := by omega
        rw [hjc']
        exact clean_small_eq_zero (cleanM_entry hclean i c)
          (lt_of_le_of_lt (findPivot_max M c r n i hri hi) hpv)
    · intro i hi
      exact Nat.lt_succ_of_lt (hL i hi)
  · rw [if_neg hpv] at hok ⊢
    dsimp only at hok ⊢
    generalize hM1 : (if findPivot M c r n ≠ r
        then swapRows M r (findPivot M c r n) else M) = M1 at hok ⊢
    have hrect1 : rect M1 n m := by
      rw [← hM1]
      split
      · exact rect_swapRows hrect hr hp2
      · exact hrect
    have hclean1 : cleanM M1 := by
      rw [← hM1]
      split
      · exact cleanM_swapRows hclean _ _
      · exact hclean
    have hZ1 : ∀ i j, r ≤ i → i < n → j < c → entry M1 i j = 0 := by
      rw [← hM1]
      split
      · intro i j hri hi hj
        rw [entry_swapRows M r (findPivot M c r n) (hrect.1 ▸ hr) (hrect.1 ▸ hp2)]
        split
        · exact hZ r j (le_refl r) hr hj
        · split
          · exact hZ _ j hp1 hp2 hj
          · exact hZ i j hri hi hj
      · exact hZ
    have hpv1 : tol ≤ |entry M1 r c| := by
      rw [← hM1]
      by_cases hdp : findPivot M c r n ≠ r
      · rw [if_pos hdp, entry_swapRows M r (findPivot M c r n) (hrect.1 ▸ hr) (hrect.1 ▸ hp2),
          if_neg (fun hh => hdp hh.symm), if_pos rfl]
        exact le_of_not_lt hpv
      · rw [if_neg hdp]
        push_neg at hdp
        exact le_of_not_lt (hdp ▸ hpv)
    have hgetD1 : ∀ i, i < r → M1.getD i [] = M.getD i [] := by
      intro i hi
      rw [← hM1]
      split
      · exact getD_swapRows_ne M r _ i (by omega) (by omega)
      · rfl
    obtain ⟨hi1, hi2, hi3, hi4, hi5, hi6⟩ :=
      geColScaleElim_inv hc hr hrect1 hclean1 hZ1 hpv1 hok
    have hlr : leadIdx ((geColScaleElim M1 r c n).1.getD r []) = c := by
      apply leadIdx_spec
      · intro j hj
        exact hi3 r j (le_refl r) hr hj
      · rw [show ((geColScaleElim M1 r c n).1.getD r []).getD c 0
            = entry (geColScaleElim M1 r c n).1 r c from rfl, hi5]
        exact one_ne_zero
    refine ⟨hi1, hi2, by omega, ?_, ?_, ?_⟩
    · intro i j hri hi hj
      rcases Nat.lt_or_ge j c with hjc | hjc
      · exact hi3 i j (by omega) hi hjc
      · have hjc' : j = c := by omega
        subst hjc'
        exact hi4 i (by omega) hi
    · intro i hi
      rcases Nat.lt_or_ge i r with hir | hir
      · rw [hi6 i hir, hgetD1 i hir]
        exact Nat.lt_succ_of_lt (hL i hir)
      · have hir' : i = r := by omega
        subst hir'
        rw [hlr]
        omega
    · intro i hi
      rcases Nat.lt_or_ge (i + 1) r with hir | hir
      · rw [hi6 (i + 1) hir, hgetD1 (i + 1) hir, hi6 i (by omega), hgetD1 i (by omega)]
        exact hS i hir
      · have heq : i + 1 = r := by omega
        rw [hi6 i (by omega), hgetD1 i (by omega), heq, hlr]
        exact hL i (by omega)

theorem GEInv_widen {n m c c' r : Nat} {M : Mat} (h : GEInv n m c r M) (hcc : c ≤ c')
    (hrn : n ≤ r) : GEInv n m c' r M := by
  obtain ⟨h1, h2, h3, h4, h5, h6⟩ := h
  exact ⟨h1, h2, h3, fun i j hri hi hj => absurd hi (by omega),
    fun i hi => lt_of_lt_of_le (h5 i hi) hcc, h6⟩

theorem geLoop_inv {n m : Nat} :
    ∀ (k c r : Nat) (M : Mat), c + k + 1 ≤ m → GEInv n m c r M →
      (geLoop n M r (List.range' c k)).ok = true →
      GEInv n m (c + k) (geLoop n M r (List.range' c k)).row
        (geLoop n M r (List.range' c k)).mat := by
  intro k
  induction k with
  | zero =>
    intro c r M _ hinv _
    simpa [List.range'_zero, geLoop] using hinv
  | succ k ih =>
    intro c r M hm hinv hok
    rw [List.range'_succ] at hok ⊢
    simp only [geLoop] at hok ⊢
    by_cases hrn : n ≤ r
    · rw [if_pos hrn] at hok ⊢
      exact GEInv_widen hinv (by omega) hrn
    · rw [if_neg hrn] at hok ⊢
      dsimp only at hok ⊢
      rw [Bool.and_eq_true] at hok
      have hstep := geColStep_inv (m := m) (by omega) (by omega) hinv hok.1
      have hrest := ih (c + 1) (geColStep M r c n).row (geColStep M r c n).mat
        (by omega) hstep hok.2
      have hcc : c + 1 + k = c + (k + 1) := by omega
      rw [hcc] at hrest
      exact hrest

theorem gaussianElimination_finalMatrix (input : Mat) :
    (gaussianElimination input).result.finalMatrix = (geRun input).mat := by
  simp only [gaussianElimination]
  split <;> rfl

/-- C2 (amended): on every nonempty rectangular `n x m` input whose run hits
no tolerance-boundary corner (`geBoundaryFree`), every row of the final matrix
below the first is either zero in all processed columns (indices
`< min n (m-1)`) or has its leading nonzero entry strictly to the right of the
leading nonzero entry of the row above.  Full row-echelon form can fail
outside the processed columns (`geREF_counterexample`) or at the tolerance
boundary (`geREF_boundary_violation`). -/
theorem geREF_restricted (input : Mat) (n m : Nat) (hn : 0 < n)
    (hrect : rect input n m) (hok : geBoundaryFree input = true) :
    ∀ i, i + 1 < n →
      (∀ j, j < min n (m - 1) →
        entry (gaussianElimination input).result.finalMatrix (i + 1) j = 0) ∨
      leadIdx ((gaussianElimination input).result.finalMatrix.getD i []) <
        leadIdx ((gaussianElimination input).result.finalMatrix.getD (i + 1) []) := by
  rcases Nat.eq_zero_or_pos m with hm0 | hm0
  · intro i hi
    left
    intro j hj
    exfalso
    omega
  have hrc : rect (cleanMatrix input) n m := rect_cleanMatrix hrect
  have hlen : (cleanMatrix input).length = n := hrc.1
  have hrow0 : ((cleanMatrix input).getD 0 []).length = m := rect_rowLen hrc hn
  have hrun : geRun input
      = geLoop n (cleanMatrix input) 0 (List.range' 0 (min n (m - 1))) := by
    simp only [geRun, hlen, hrow0, List.range_eq_range']
  have hok' : (geLoop n (cleanMatrix input) 0 (List.range' 0 (min n (m - 1)))).ok = true := by
    rw [← hrun]
    exact hok
  have hinv0 : GEInv n m 0 0 (cleanMatrix input) :=
    ⟨hrc, cleanM_cleanMatrix input, Nat.zero_le n,
      fun i j _ _ hj => absurd hj (Nat.not_lt_zero j),
      fun i hi => absurd hi (Nat.not_lt_zero i),
      fun i hi => absurd hi (by omega)⟩
  have hfin := geLoop_inv (min n (m - 1)) 0 0 (cleanMatrix input) (by omega) hinv0 hok'
  rw [gaussianElimination_finalMatrix, hrun]
  obtain ⟨f1, f2, f3, f4, f5, f6⟩ := hfin
  intro i hi
  by_cases hir :
      i + 1 < (geLoop n (cleanMatrix input) 0 (List.range' 0 (min n (m - 1)))).row
  · right
    exact f6 i hir
  · left
    intro j hj
    exact f4 (i + 1) j (by omega) hi (by omega)

set_option maxRecDepth 10000 in
set_option maxHeartbeats 2000000 in
theorem geREF_restricted_witness :
    (0 < 2 ∧ rect [[(2 : ℚ), 1], [1, 3]] 2 2 ∧
      geBoundaryFree [[(2 : ℚ), 1], [1, 3]] = true) ∧
    ∀ i, i + 1 < 2 →
      (∀ j, j < min 2 (2 - 1) →
        entry (gaussianElimination [[(2 : ℚ), 1], [1, 3]]).result.finalMatrix (i + 1) j = 0) ∨
      leadIdx ((gaussianElimination [[(2 : ℚ), 1], [1, 3]]).result.finalMatrix.getD i []) <
        leadIdx ((gaussianElimination [[(2 : ℚ), 1], [1, 3]]).result.finalMatrix.getD (i + 1) []) :=
  ⟨⟨by norm_num, by simp [rect],
      by norm_num [geBoundaryFree, geRun, geLoop, geColStep, geColScaleElim, geElimBelow,
        findPivot, entry, swapRows, multiplyRow, addRows, addRowsVec, cleanMatrix, cleanNumber,
        tol, abs_div, abs_neg, abs_one, abs_zero, abs_pow, List.range_succ, List.range'_succ]⟩,
    geREF_restricted [[(2 : ℚ), 1], [1, 3]] 2 2 (by norm_num) (by simp [rect])
      (by norm_num [geBoundaryFree, geRun, geLoop, geColStep, geColScaleElim, geElimBelow,
        findPivot, entry, swapRows, multiplyRow, addRows, addRowsVec, cleanMatrix, cleanNumber,
        tol, abs_div, abs_neg, abs_one, abs_zero, abs_pow, List.range_succ, List.range'_succ])⟩

theorem leadIdx_le_length (row : List ℚ) : leadIdx row ≤ row.length := by
  induction row with
  | nil => exact le_refl 0
  | cons x rest ih =>
    simp only [leadIdx, List.length_cons]
    split
    · omega
    · omega

theorem leadIdx_zero_before (row : List ℚ) : ∀ j, j < leadIdx row → row.getD j 0 = 0 := by
  induction row with
  | nil =>
    intro j hj
    simp [leadIdx] at hj
  | cons x rest ih =>
    intro j hj
    simp only [leadIdx] at hj
    split at hj
    · omega
    · rename_i hx
      cases j with
      | zero =>
        rw [List.getD_cons_zero]
        exact not_not.mp hx
      | succ jj =>
        rw [List.getD_cons_succ]
        exact ih jj (by omega)

theorem leadIdx_eq_length (row : List ℚ) (h : ∀ j, j < row.length → row.getD j 0 = 0) :
    leadIdx row = row.length := by
  induction row with
  | nil => rfl
  | cons x rest ih =>
    have hx : x = 0 := by simpa using h 0 (by simp)
    simp only [leadIdx, hx, ne_eq, not_true_eq_false, if_false, List.length_cons]
    rw [ih (fun j hj => by simpa using h (j + 1) (by simpa using hj))]

theorem getD_eq_zero_of_leadIdx_eq {row : List ℚ} (h : leadIdx row = row.length) :
    ∀ j, row.getD j 0 = 0 := by
  intro j
  rcases Nat.lt_or_ge j (leadIdx row) with hj | hj
  · exact leadIdx_zero_before row j hj
  · exact List.getD_eq_default _ _ (by omega)

theorem gjElim_noop {M : Mat} {row l : Nat} :
    ∀ (rows : List Nat), (∀ i ∈ rows, i ≠ row → entry M i l = 0) →
      gjElim M row l rows = ⟨M, [], true⟩ := by
  intro rows
  induction rows with
  | nil => intro _; rfl
  | cons i rest ih =>
    intro h
    simp only [gjElim]
    by_cases hir : i = row
    · rw [if_pos hir]
      exact ih (fun k hk hkr => h k (List.mem_cons_of_mem _ hk) hkr)
    · rw [if_neg hir, h i (List.mem_cons_self _ _) hir, abs_zero,
        if_neg (not_lt.mpr (le_of_lt tol_pos))]
      exact ih (fun k hk hkr => h k (List.mem_cons_of_mem _ hk) hkr)

theorem gjRowBody_noop {M : Mat} {n row l : Nat}
    (hpiv : entry M row l = 1)
    (hother : ∀ i, i < n → i ≠ row → entry M i l = 0) :
    gjRowBody M n row row l = (M, l + 1, [], true) := by
  have helim : gjElim M row l (List.range n) = ⟨M, [], true⟩ :=
    gjElim_noop (List.range n) (fun i hi hir => hother i (List.mem_range.mp hi) hir)
  have hne : ¬(row ≠ row) := fun hh => hh rfl
  have hsc : (decide (tol < |entry M row l|) && decide (tol < |entry M row l - 1|)) = false := by
    rw [hpiv]
    norm_num [tol]
  simp only [gjRowBody, hne, ite_false, hsc, helim, Bool.false_eq_true, if_false,
    List.nil_append, List.append_nil, Bool.true_and, Bool.and_true]

theorem find_row_none {M : Mat} {n r c : Nat}
    (h : ∀ i, r ≤ i → i < n → entry M i c = 0) :
    (List.range' r (n - r)).find? (fun i => decide (tol ≤ |entry M i c|)) = none := by
  rw [List.find?_eq_none]
  intro i hi
  rcases List.mem_range'_1.mp hi with ⟨h1, h2⟩
  simp only [decide_eq_true_eq]
  rw [h i h1 (by omega), abs_zero]
  exact not_le.mpr tol_pos

theorem gjFindPivot_none {M : Mat} {n r : Nat}
    (h : ∀ i, r ≤ i → i < n → ∀ c, entry M i c = 0) :
    ∀ (cols : List Nat), gjFindPivot M n r cols = none := by
  intro cols
  induction cols with
  | nil => rfl
  | cons c rest ih =>
    unfold gjFindPivot
    rw [find_row_none (fun i h1 h2 => h i h1 h2 c)]
    exact ih

theorem gjFindPivot_found {M : Mat} {n r l : Nat} (hrn : r < n)
    (hl : entry M r l = 1)
    (hzero : ∀ c, c < l → ∀ i, r ≤ i → i < n → entry M i c = 0) :
    ∀ (j v : Nat), v ≤ l → l < v + j →
      gjFindPivot M n r (List.range' v j) = some (r, l) := by
  intro j
  induction j with
  | zero =>
    intro v hv hlt
    exact absurd hlt (by omega)
  | succ j ih =>
    intro v hv hlt
    rw [List.range'_succ]
    unfold gjFindPivot
    rcases Nat.eq_or_lt_of_le hv with heq | hlt2
    · have hfind : (List.range' r (n - r)).find?
          (fun i => decide (tol ≤ |entry M i v|)) = some r := by
        have hnr : n - r = (n - r - 1) + 1 := by omega
        rw [hnr, List.range'_succ]
        apply List.find?_cons_of_pos
        rw [heq, hl]
        norm_num [tol]
      rw [hfind, heq]
    · rw [find_row_none (fun i h1 h2 => hzero v hlt2 i h1 h2)]
      exact ih (v + 1) (by omega) (by omega)

theorem lead_zero_prop {n m : Nat} {M : Mat} (hrect : rect M n m)
    (hchain : ∀ i, i + 1 < n → leadIdx (M.getD i []) < leadIdx (M.getD (i + 1) []) ∨
      leadIdx (M.getD (i + 1) []) = m) :
    ∀ d i, i + d < n → leadIdx (M.getD i []) = m → leadIdx (M.getD (i + d) []) = m := by
  intro d
  induction d with
  | zero => intro i _ h; exact h
  | succ d ih =>
    intro i hd h
    have hprev : leadIdx (M.getD (i + d) []) = m := ih i (by omega) h
    rcases hchain (i + d) (by omega) with hlt | heq
    · have hle : leadIdx (M.getD (i + d + 1) []) ≤ m := by
        rw [← rect_rowLen hrect (show i + d + 1 < n by omega)]
        exact leadIdx_le_length _
      omega
    · exact heq

theorem lead_chain {n m : Nat} {M : Mat} (hrect : rect M n m)
    (hchain : ∀ i, i + 1 < n → leadIdx (M.getD i []) < leadIdx (M.getD (i + 1) []) ∨
      leadIdx (M.getD (i + 1) []) = m) :
    ∀ d i, i + d < n → leadIdx (M.getD (i + d) []) < m → d ≠ 0 →
      leadIdx (M.getD i []) < leadIdx (M.getD (i + d) []) ∧ leadIdx (M.getD i []) < m := by
  intro d
  induction d with
  | zero => intro i _ _ hd; exact absurd rfl hd
  | succ d ih =>
    intro i hd hlast _
    rw [show i + (d + 1) = i + d + 1 from by omega] at hlast ⊢
    have hstep : leadIdx (M.getD (i + d) []) < leadIdx (M.getD (i + d + 1) []) := by
      rcases hchain (i + d) (by omega) with hlt | heq
      · exact hlt
      · omega
    have hdm : leadIdx (M.getD (i + d) []) < m := by omega
    rcases Nat.eq_zero_or_pos d with hd0 | hd0
    · subst hd0
      simp only [Nat.add_zero] at hstep hdm ⊢
      exact ⟨by omega, by omega⟩
    · have := ih i (by omega) hdm (by omega)
      exact ⟨by omega, this.2⟩

theorem gjLoop_rref {n m : Nat} {M : Mat} (hrect : rect M n m)
    (hlead1 : ∀ i, i < n → leadIdx (M.getD i []) < m →
      entry M i (leadIdx (M.getD i [])) = 1)
    (hcol : ∀ i, i < n → leadIdx (M.getD i []) < m →
      ∀ k, k < n → k ≠ i → entry M k (leadIdx (M.getD i [])) = 0)
    (hchain : ∀ i, i + 1 < n → leadIdx (M.getD i []) < leadIdx (M.getD (i + 1) []) ∨
      leadIdx (M.getD (i + 1) []) = m) :
    ∀ (k r v : Nat), r + k = n → v ≤ m →
      (∀ i, r ≤ i → i < n → leadIdx (M.getD i []) < m → v ≤ leadIdx (M.getD i [])) →
      (gjLoop n m M v (List.range' r k)).mat = M ∧
      (∀ s ∈ (gjLoop n m M v (List.range' r k)).steps, s.operation = none) := by
  intro k
  induction k with
  | zero =>
    intro r v _ _ _
    exact ⟨rfl, fun s hs => absurd hs (List.not_mem_nil s)⟩
  | succ k ih =>
    intro r v hrk hvm hlow
    have hrn : r < n := by omega
    rw [List.range'_succ]
    simp only [gjLoop]
    by_cases hml : m ≤ v
    · rw [if_pos hml]
      exact ⟨rfl, fun s hs => absurd hs (List.not_mem_nil s)⟩
    · rw [if_neg hml]
      by_cases hz : leadIdx (M.getD r []) = m
      · have hallz : ∀ i, r ≤ i → i < n → ∀ c, entry M i c = 0 := by
          intro i hri hin c
          have hzi : leadIdx (M.getD i []) = m := by
            have := lead_zero_prop hrect hchain (i - r) r (by omega) hz
            rwa [show r + (i - r) = i from by omega] at this
          exact getD_eq_zero_of_leadIdx_eq (by rw [rect_rowLen hrect hin]; exact hzi) c
        rw [gjFindPivot_none hallz]
        refine ⟨rfl, ?_⟩
        intro s hs
        rw [List.mem_singleton.mp hs]
      · have hLr : leadIdx (M.getD r []) < m :=
          lt_of_le_of_ne ((leadIdx_le_length _).trans_eq (rect_rowLen hrect hrn)) hz
        have hzero : ∀ c, c < leadIdx (M.getD r []) →
            ∀ i, r ≤ i → i < n → entry M i c = 0 := by
          intro c hc i hri hin
          have hlt : c < leadIdx (M.getD i []) := by
            rcases Nat.eq_or_lt_of_le hri with heq | hgt
            · rw [← heq]
              exact hc
            · by_cases hiz : leadIdx (M.getD i []) = m
              · omega
              · have hi2 : leadIdx (M.getD i []) < m :=
                  lt_of_le_of_ne ((leadIdx_le_length _).trans_eq (rect_rowLen hrect hin)) hiz
                have hch := (lead_chain hrect hchain (i - r) r (by omega)
                  (by rwa [show r + (i - r) = i from by omega]) (by omega)).1
                rw [show r + (i - r) = i from by omega] at hch
                omega
          exact leadIdx_zero_before _ c hlt
        have hfound := gjFindPivot_found hrn (hlead1 r hrn hLr) hzero (m - v) v
          (hlow r (le_refl r) hrn hLr) (by omega)
        rw [hfound]
        dsimp only
        rw [gjRowBody_noop (hlead1 r hrn hLr)
          (fun i hin hir => hcol r hrn hLr i hin hir)]
        dsimp only
        have hres := ih (r + 1) (leadIdx (M.getD r []) + 1) (by omega) (by omega) ?_
        · refine ⟨hres.1, ?_⟩
          intro s hs
          rcases List.mem_cons.mp hs with heq | hs2
          · rw [heq]
          · exact hres.2 s (by simpa using hs2)
        · intro i hri hin hi2
          have hch := (lead_chain hrect hchain (i - r) r (by omega)
            (by rwa [show r + (i - r) = i from by omega]) (by omega)).1
          rw [show r + (i - r) = i from by omega] at hch
          omega

theorem isRREF_iff (M : Mat) : isRREF M = true ↔ ∀ i, i < M.length →
    ((leadIdx (M.getD i []) = (M.getD i []).length ∨
      ((M.getD i []).getD (leadIdx (M.getD i [])) 0 = 1 ∧
        ∀ k, k < M.length → k = i ∨ entry M k (leadIdx (M.getD i [])) = 0)) ∧
     (i + 1 = M.length ∨ leadIdx (M.getD i []) < leadIdx (M.getD (i + 1) []) ∨
       leadIdx (M.getD (i + 1) []) = (M.getD (i + 1) []).length)) := by
  simp [isRREF, List.all_eq_true, List.mem_range]

theorem cleanNumber_close (q : ℚ) : |cleanNumber q - q| < tol := by
  unfold cleanNumber
  split
  · rw [zero_sub, abs_neg]
    assumption
  · rw [sub_self, abs_zero]
    exact tol_pos

/-- C8: Gauss-Jordan is idempotent on matrices already in reduced row echelon
form (each leading entry 1 and the sole nonzero of its column, leading entries
strictly right-descending, zero rows at the bottom): the final matrix is the
cleaned input - hence equal to the input up to the tolerance, entrywise - and
no recorded step carries a swap, multiply, or add operation tag. -/
theorem gaussJordan_rref_idempotent (input : Mat) (n m : Nat) (hn : 0 < n)
    (hrect : rect input n m) (hrref : isRREF input = true) :
    (gaussJordan input).result.finalMatrix = cleanMatrix input ∧
    (∀ s ∈ (gaussJordan input).steps, s.operation = none) ∧
    (∀ i j, |entry (gaussJordan input).result.finalMatrix i j - entry input i j| < tol) := by
  have hR := (isRREF_iff input).mp hrref
  have hlen : input.length = n := hrect.1
  rw [hlen] at hR
  have hrc : rect (cleanMatrix input) n m := rect_cleanMatrix hrect
  have hrow : ∀ i, (cleanMatrix input).getD i [] = (input.getD i []).map cleanNumber :=
    fun i => getD_map_nil _ rfl _ _
  have hgd : ∀ i j, ((cleanMatrix input).getD i []).getD j 0
      = cleanNumber ((input.getD i []).getD j 0) := by
    intro i j
    rw [hrow i]
    exact getD_map_zero _ cleanNumber_zero _ _
  have hLeq : ∀ i, i < n →
      leadIdx ((cleanMatrix input).getD i []) = leadIdx (input.getD i []) := by
    intro i hi
    rcases (hR i hi).1 with hz | ⟨h1, _⟩
    · have hall : ∀ j, (input.getD i []).getD j 0 = 0 := getD_eq_zero_of_leadIdx_eq hz
      have hcl : leadIdx ((cleanMatrix input).getD i [])
          = ((cleanMatrix input).getD i []).length := by
        apply leadIdx_eq_length
        intro j hj
        rw [hgd i j, hall j]
        exact cleanNumber_zero
      rw [hcl, hz, hrow i, List.length_map]
    · apply leadIdx_spec
      · intro j hj
        rw [hgd i j, leadIdx_zero_before _ j hj]
        exact cleanNumber_zero
      · rw [hgd i _, h1, cleanNumber_one]
        exact one_ne_zero
  have hlead1 : ∀ i, i < n → leadIdx ((cleanMatrix input).getD i []) < m →
      entry (cleanMatrix input) i (leadIdx ((cleanMatrix input).getD i [])) = 1 := by
    intro i hi hlt
    rw [hLeq i hi] at hlt ⊢
    rcases (hR i hi).1 with hz | ⟨h1, _⟩
    · rw [rect_rowLen hrect hi] at hz
      omega
    · rw [entry_cleanMatrix,
        show entry input i (leadIdx (input.getD i [])) = 1 from h1, cleanNumber_one]
  have hcolz : ∀ i, i < n → leadIdx ((cleanMatrix input).getD i []) < m →
      ∀ k, k < n → k ≠ i →
        entry (cleanMatrix input) k (leadIdx ((cleanMatrix input).getD i [])) = 0 := by
    intro i hi hlt k hk hki
    rw [hLeq i hi] at hlt ⊢
    rcases (hR i hi).1 with hz | ⟨h1, hc⟩
    · rw [rect_rowLen hrect hi] at hz
      omega
    · rcases hc k hk with heq | h0
      · exact absurd heq hki
      · rw [entry_cleanMatrix, h0]
        exact cleanNumber_zero
  have hchain : ∀ i, i + 1 < n →
      leadIdx ((cleanMatrix input).getD i []) <
        leadIdx ((cleanMatrix input).getD (i + 1) []) ∨
      leadIdx ((cleanMatrix input).getD (i + 1) []) = m := by
    intro i hi
    rw [hLeq i (by omega), hLeq (i + 1) hi]
    rcases (hR i (by omega)).2 with heq | hlt | hz
    · omega
    · exact Or.inl hlt
    · right
      rw [hz]
      exact rect_rowLen hrect hi
  have hloop := gjLoop_rref hrc hlead1 hcolz hchain n 0 0 (by omega) (by omega)
    (fun i _ _ _ => Nat.zero_le _)
  have hlen2 : (cleanMatrix input).length = n := hrc.1
  have hrow0 : ((cleanMatrix input).getD 0 []).length = m := rect_rowLen hrc hn
  have hfin : (gaussJordan input).result.finalMatrix
      = (gjLoop n m (cleanMatrix input) 0 (List.range' 0 n)).mat := by
    simp only [gaussJordan, hlen2, hrow0, List.range_eq_range']
    split <;> rfl
  have hbase : ∀ s ∈ (⟨cleanMatrix input, none⟩ : Step) ::
      (gjLoop n m (cleanMatrix input) 0 (List.range' 0 n)).steps ++
      [(⟨(gjLoop n m (cleanMatrix input) 0 (List.range' 0 n)).mat, none⟩ : Step)],
      s.operation = none := by
    intro s hs
    rcases List.mem_cons.mp hs with heq | hs1
    · rw [heq]
    · rcases List.mem_append.mp hs1 with hs2 | hs3
      · exact hloop.2 s hs2
      · rw [List.mem_singleton.mp hs3]
  refine ⟨by rw [hfin, hloop.1], ?_, ?_⟩
  · simp only [gaussJordan, hlen2, hrow0, List.range_eq_range']
    split
    · intro s hs
      rcases List.mem_append.mp hs with hs1 | hs2
      · exact hbase s hs1
      · rw [List.mem_singleton.mp hs2]
    · exact hbase
  · intro i j
    rw [hfin, hloop.1, entry_cleanMatrix]
    exact cleanNumber_close _

set_option maxRecDepth 10000 in
set_option maxHeartbeats 2000000 in
theorem gaussJordan_rref_idempotent_witness :
    (0 < 2 ∧ rect [[(1 : ℚ), 0, 5], [0, 1, 3]] 2 3 ∧
      isRREF [[(1 : ℚ), 0, 5], [0, 1, 3]] = true) ∧
    ((gaussJordan [[(1 : ℚ), 0, 5], [0, 1, 3]]).result.finalMatrix
        = cleanMatrix [[(1 : ℚ), 0, 5], [0, 1, 3]] ∧
      (∀ s ∈ (gaussJordan [[(1 : ℚ), 0, 5], [0, 1, 3]]).steps, s.operation = none) ∧
      (∀ i j, |entry (gaussJordan [[(1 : ℚ), 0, 5], [0, 1, 3]]).result.finalMatrix i j -
        entry [[(1 : ℚ), 0, 5], [0, 1, 3]] i j| < tol)) :=
  ⟨⟨by norm_num, by simp [rect],
      by norm_num [isRREF, leadIdx, entry, List.range_succ, List.all_cons, List.all_nil]⟩,
    gaussJordan_rref_idempotent [[(1 : ℚ), 0, 5], [0, 1, 3]] 2 3 (by norm_num)
      (by simp [rect])
      (by norm_num [isRREF, leadIdx, entry, List.range_succ, List.all_cons, List.all_nil])⟩

/-!  ## C3: the inverse round-trip on lossless runs  -/

theorem list_range_sum (g : ℕ → ℚ) : ∀ n, ((List.range n).map g).sum
    = ∑ t ∈ Finset.range n, g t := by
  intro n
  induction n with
  | zero => rfl
  | succ n ih =>
    rw [List.range_succ, List.map_append, List.sum_append, Finset.sum_range_succ, ih]
    simp

theorem enumFrom_map_sum (h : ℕ → ℚ → ℚ) :
    ∀ (row : List ℚ) (k : ℕ),
      ((row.enumFrom k).map (fun p => h p.1 p.2)).sum
        = ((List.range row.length).map (fun t => h (k + t) (row.getD t 0))).sum := by
  intro row
  induction row with
  | nil => intro k; rfl
  | cons x xs ih =>
    intro k
    rw [List.enumFrom_cons, List.map_cons, List.sum_cons, ih (k + 1),
      List.length_cons, List.range_succ_eq_map, List.map_cons, List.sum_cons,
      List.map_map]
    congr 1
    refine congrArg List.sum (List.map_congr_left ?_)
    intro t _
    simp only [Function.comp_apply, Nat.succ_eq_add_one, List.getD_cons_succ]
    rw [show k + (t + 1) = k + 1 + t from by omega]

theorem enum_map_sum (h : ℕ → ℚ → ℚ) (row : List ℚ) :
    (row.enum.map (fun p => h p.1 p.2)).sum
      = ((List.range row.length).map (fun t => h t (row.getD t 0))).sum := by
  rw [List.enum_eq_enumFrom, enumFrom_map_sum]
  refine congrArg List.sum (List.map_congr_left ?_)
  intro t _
  rw [Nat.zero_add]

theorem sum_delta (g : ℕ → ℚ) : ∀ n i, i < n →
    ((List.range n).map (fun t => (if i = t then (1 : ℚ) else 0) * g t)).sum = g i := by
  intro n
  induction n with
  | zero => intro i hi; omega
  | succ n ih =>
    intro i hi
    rw [List.range_succ, List.map_append, List.sum_append]
    by_cases hin : i = n
    · have hz : ((List.range n).map
          (fun t => (if i = t then (1 : ℚ) else 0) * g t)).sum = 0 := by
        apply List.sum_eq_zero
        intro x hx
        rcases List.mem_map.mp hx with ⟨t, ht, rfl⟩
        have : ¬ i = t := by
          have := List.mem_range.mp ht
          omega
        rw [if_neg this, zero_mul]
      rw [hz, hin]
      simp
    · rw [ih i (by omega)]
      simp [hin]

theorem getD_drop (l : List ℚ) (n t : Nat) : (l.drop n).getD t 0 = l.getD (n + t) 0 := by
  rw [List.getD_eq_getElem?_getD, List.getElem?_drop, ← List.getD_eq_getElem?_getD]

theorem entry_matMul (A B : Mat) (i j : Nat) (hi : i < A.length)
    (hj : j < (B.getD 0 []).length) :
    entry (matMul A B) i j
      = ((A.getD i []).enum.map (fun p => p.2 * entry B p.1 j)).sum := by
  have hrow : (matMul A B).getD i [] = (List.range ((B.getD 0 []).length)).map
      (fun j => ((A.getD i []).enum.map (fun p => p.2 * entry B p.1 j)).sum) := by
    unfold matMul
    rw [List.getD_eq_getElem _ _ (by simpa using hi), List.getElem_map,
      List.getD_eq_getElem A [] hi]
  show ((matMul A B).getD i []).getD j 0 = _
  rw [hrow, List.getD_eq_getElem _ _ (by simpa using hj), List.getElem_map,
    List.getElem_range]

theorem rect_matMul (A B : Mat) : rect (matMul A B) A.length (B.getD 0 []).length := by
  constructor
  · simp [matMul]
  · intro row hrow
    simp only [matMul, List.mem_map] at hrow
    obtain ⟨r, _, rfl⟩ := hrow
    simp

theorem rect_idMat (n : Nat) : rect (idMat n) n n := by
  constructor
  · simp [idMat]
  · intro row hrow
    simp only [idMat, List.mem_map] at hrow
    obtain ⟨r, _, rfl⟩ := hrow
    simp

theorem entry_idMat (n i j : Nat) (hi : i < n) (hj : j < n) :
    entry (idMat n) i j = if i = j then 1 else 0 := by
  have hrow : (idMat n).getD i [] = (List.range n).map
      (fun j => if i = j then (1 : ℚ) else 0) := by
    unfold idMat
    rw [List.getD_eq_getElem _ _ (by simpa using hi), List.getElem_map,
      List.getElem_range]
  show ((idMat n).getD i []).getD j 0 = _
  rw [hrow, List.getD_eq_getElem _ _ (by simpa using hj), List.getElem_map,
    List.getElem_range]

theorem mat_ext {X Y : Mat} {n m : Nat} (hX : rect X n m) (hY : rect Y n m)
    (h : ∀ i j, i < n → j < m → entry X i j = entry Y i j) : X = Y := by
  apply List.ext_getElem (by rw [hX.1, hY.1])
  intro i hi1 hi2
  have hin : i < n := by rw [← hX.1]; exact hi1
  have hlX : (X[i]).length = m := hX.2 _ (List.getElem_mem hi1)
  have hlY : (Y[i]).length = m := hY.2 _ (List.getElem_mem hi2)
  apply List.ext_getElem (by rw [hlX, hlY])
  intro j hj1 hj2
  have hjm : j < m := by rw [← hlX]; exact hj1
  have he := h i j hin hjm
  unfold entry at he
  rw [List.getD_eq_getElem X [] hi1, List.getD_eq_getElem _ 0 (by omega),
    List.getD_eq_getElem Y [] hi2, List.getD_eq_getElem _ 0 (by omega)] at he
  exact he

/-- The top-left `n x n` block of a list matrix as a Mathlib matrix, used to
transport invertibility facts. -/
def toMx (M : Mat) (n : Nat) : Matrix (Fin n) (Fin n) ℚ :=
  Matrix.of (fun i j => entry M i.val j.val)

/-- Row-relation invariant of the Gauss-Jordan run on `[A | I]`: the working
matrix is `n x 2n` and each left-block entry is the corresponding product of
the right block with `A`. -/
def InvRel (A W : Mat) (n : Nat) : Prop :=
  rect W n (2 * n) ∧
  ∀ i j, i < n → j < n →
    entry W i j = ((List.range n).map (fun t => entry W i (n + t) * entry A t j)).sum

theorem invRel_swap {A W : Mat} {n : Nat} (h : InvRel A W n) {r1 r2 : Nat}
    (h1 : r1 < n) (h2 : r2 < n) : InvRel A (swapRows W r1 r2) n := by
  obtain ⟨hrect, hrel⟩ := h
  have hl1 : r1 < W.length := by rw [hrect.1]; exact h1
  have hl2 : r2 < W.length := by rw [hrect.1]; exact h2
  refine ⟨rect_swapRows hrect h1 h2, ?_⟩
  intro i j hi hj
  rw [entry_swapRows W r1 r2 hl1 hl2]
  by_cases hir2 : i = r2
  · rw [if_pos hir2,
      List.map_congr_left (fun t _ => by
        rw [entry_swapRows W r1 r2 hl1 hl2, if_pos hir2])]
    exact hrel r1 j h1 hj
  · rw [if_neg hir2]
    by_cases hir1 : i = r1
    · rw [if_pos hir1,
        List.map_congr_left (fun t _ => by
          rw [entry_swapRows W r1 r2 hl1 hl2, if_neg hir2, if_pos hir1])]
      exact hrel r2 j h2 hj
    · rw [if_neg hir1,
        List.map_congr_left (fun t _ => by
          rw [entry_swapRows W r1 r2 hl1 hl2, if_neg hir2, if_neg hir1])]
      exact hrel i j hi hj

theorem invRel_scale {A W : Mat} {n : Nat} (h : InvRel A W n) {r : Nat} (hr : r < n)
    (k : ℚ) : InvRel A (multiplyRow W r k) n := by
  obtain ⟨hrect, hrel⟩ := h
  refine ⟨rect_multiplyRow hrect hr k, ?_⟩
  intro i j hi hj
  rw [entry_multiplyRow]
  by_cases hir : i = r ∧ r < W.length
  · have hmap : (List.range n).map
        (fun t => entry (multiplyRow W r k) i (n + t) * entry A t j)
      = (List.range n).map (fun t => entry W i (n + t) * entry A t j * k) := by
      apply List.map_congr_left
      intro t _
      rw [entry_multiplyRow, if_pos hir]
      ring
    rw [if_pos hir, hmap, List.sum_map_mul_right, ← hrel i j hi hj]
  · have hmap : (List.range n).map
        (fun t => entry (multiplyRow W r k) i (n + t) * entry A t j)
      = (List.range n).map (fun t => entry W i (n + t) * entry A t j) := by
      apply List.map_congr_left
      intro t _
      rw [entry_multiplyRow, if_neg hir]
    rw [if_neg hir, hmap]
    exact hrel i j hi hj

theorem invRel_add {A W : Mat} {n : Nat} (h : InvRel A W n) {t s : Nat} (ht : t < n)
    (hs : s < n) (k : ℚ) : InvRel A (addRows W t s k) n := by
  obtain ⟨hrect, hrel⟩ := h
  have hlt : t < W.length := by rw [hrect.1]; exact ht
  have hlen2 : (W.getD t []).length = 2 * n := rect_rowLen hrect ht
  refine ⟨rect_addRows hrect ht s k, ?_⟩
  intro i j hi hj
  rw [entry_addRows]
  by_cases hit : i = t
  · have hmap : (List.range n).map
        (fun u => entry (addRows W t s k) i (n + u) * entry A u j)
      = (List.range n).map (fun u => entry W t (n + u) * entry A u j
          + k * (entry W s (n + u) * entry A u j)) := by
      apply List.map_congr_left
      intro u hu
      have hun := List.mem_range.mp hu
      rw [entry_addRows, if_pos ⟨hit, hlt, by omega⟩]
      ring
    have e1 := hrel t j ht hj
    have e2 := hrel s j hs hj
    rw [list_range_sum] at e1 e2
    rw [if_pos ⟨hit, hlt, by omega⟩, hmap, list_range_sum, Finset.sum_add_distrib,
      ← Finset.mul_sum, ← e1, ← e2]
  · have hmap : (List.range n).map
        (fun u => entry (addRows W t s k) i (n + u) * entry A u j)
      = (List.range n).map (fun u => entry W i (n + u) * entry A u j) := by
      apply List.map_congr_left
      intro u _
      rw [entry_addRows, if_neg (fun hc => hit hc.1)]
    rw [if_neg (fun hc => hit hc.1), hmap]
    exact hrel i j hi hj

theorem gjElim_rel {A : Mat} {n row l : Nat} (hrow : row < n) :
    ∀ (rows : List Nat) (W : Mat), (∀ i ∈ rows, i < n) → InvRel A W n →
      (gjElim W row l rows).ok = true → InvRel A (gjElim W row l rows).mat n := by
  intro rows
  induction rows with
  | nil => intro W _ h _; exact h
  | cons i rest ih =>
    intro W hb h hok
    simp only [gjElim] at hok ⊢
    by_cases hir : i = row
    · rw [if_pos hir] at hok ⊢
      exact ih W (fun q hq => hb q (List.mem_cons_of_mem _ hq)) h hok
    · rw [if_neg hir] at hok ⊢
      by_cases hf : tol < |entry W i l|
      · rw [if_pos hf] at hok ⊢
        dsimp only at hok ⊢
        rw [Bool.and_eq_true] at hok
        obtain ⟨h1, h2⟩ := hok
        have hcl : cleanMatrix (addRows W i row (-entry W i l))
            = addRows W i row (-entry W i l) := of_decide_eq_true h1
        rw [hcl] at h2 ⊢
        exact ih _ (fun q hq => hb q (List.mem_cons_of_mem _ hq))
          (invRel_add h (hb i (List.mem_cons_self _ _)) hrow _) h2
      · rw [if_neg hf] at hok ⊢
        exact ih W (fun q hq => hb q (List.mem_cons_of_mem _ hq)) h hok

theorem gjRowBody_rel {A W : Mat} {n row r l : Nat} (hrow : row < n) (hr : r < n)
    (h : InvRel A W n) (hok : (gjRowBody W n row r l).2.2.2 = true) :
    InvRel A (gjRowBody W n row r l).1 n := by
  simp only [gjRowBody] at hok ⊢
  rw [Bool.and_eq_true] at hok
  obtain ⟨hok2, hoke⟩ := hok
  generalize hM1 : (if r ≠ row then swapRows W row r else W) = M1 at hok2 hoke ⊢
  have h1 : InvRel A M1 n := by
    rw [← hM1]
    split
    · exact invRel_swap h hrow hr
    · exact h
  by_cases hsc : (decide (tol < |entry M1 row l|)
      && decide (tol < |entry M1 row l - 1|)) = true
  · rw [if_pos hsc] at hok2 hoke ⊢
    have heq : cleanMatrix (multiplyRow M1 row (1 / entry M1 row l))
        = multiplyRow M1 row (1 / entry M1 row l) := of_decide_eq_true hok2
    rw [heq] at hoke ⊢
    exact gjElim_rel hrow (List.range n) _ (fun q hq => List.mem_range.mp hq)
      (invRel_scale h1 hrow _) hoke
  · rw [if_neg hsc] at hoke ⊢
    exact gjElim_rel hrow (List.range n) M1 (fun q hq => List.mem_range.mp hq) h1 hoke

theorem gjLoop_rel {A : Mat} {n mm : Nat} :
    ∀ (rows : List Nat) (W : Mat) (lead : Nat), InvRel A W n →
      (gjLoop n mm W lead rows).ok = true →
      InvRel A (gjLoop n mm W lead rows).mat n := by
  intro rows
  induction rows with
  | nil => intro W lead h _; exact h
  | cons row rest ih =>
    intro W lead h hok
    simp only [gjLoop] at hok ⊢
    by_cases hml : mm ≤ lead
    · rw [if_pos hml] at hok ⊢
      exact h
    · rw [if_neg hml] at hok ⊢
      rcases hfp : gjFindPivot W n row (List.range' lead (mm - lead)) with _ | rl
      · exact h
      · rw [hfp] at hok
        dsimp only at hok ⊢
        rw [Bool.and_eq_true] at hok
        obtain ⟨hob, hor⟩ := hok
        have hbound := gjFindPivot_some W n row _ rl.1 rl.2 (by rw [hfp])
        exact ih _ _ (gjRowBody_rel (by omega) hbound.1.2 h hob) hor

theorem augmentId_getD {A : Mat} {n : Nat} (h : rect A n n) {i : Nat} (hi : i < n) :
    (augmentId A).getD i []
      = A.getD i [] ++ (List.range n).map (fun j => if i = j then (1 : ℚ) else 0) := by
  unfold augmentId
  rw [List.getD_eq_getElem _ _ (by simpa [h.1] using hi), List.getElem_map,
    List.getElem_enum]
  dsimp only
  congr 1
  · exact (List.getD_eq_getElem A [] (h.1 ▸ hi)).symm
  · rw [h.1]

theorem invRel_init {A : Mat} {n : Nat} (h : rect A n n) : InvRel A (augmentId A) n := by
  refine ⟨rect_augmentId h, ?_⟩
  intro i j hi hj
  have hgd := augmentId_getD h hi
  have hrowlen : (A.getD i []).length = n := rect_rowLen h hi
  have hleft : entry (augmentId A) i j = entry A i j := by
    show ((augmentId A).getD i []).getD j 0 = _
    rw [hgd, List.getD_append _ _ _ j (by omega)]
    rfl
  have hright : ∀ t, t < n → entry (augmentId A) i (n + t) = if i = t then 1 else 0 := by
    intro t htn
    show ((augmentId A).getD i []).getD (n + t) 0 = _
    rw [hgd, List.getD_append_right _ _ _ _ (by omega),
      show n + t - (A.getD i []).length = t from by omega,
      List.getD_eq_getElem _ _ (by simpa using htn), List.getElem_map, List.getElem_range]
  have hmapeq : (List.range n).map (fun t => entry (augmentId A) i (n + t) * entry A t j)
      = (List.range n).map (fun t => (if i = t then (1 : ℚ) else 0) * entry A t j) :=
    List.map_congr_left (fun t ht => by rw [hright t (List.mem_range.mp ht)])
  rw [hleft, hmapeq, sum_delta (fun t => entry A t j) n i hi]

/-- C3 (amended): on a square `n x n` input whose Gauss-Jordan run over the
augmented matrix `[A | I]` is cleanup-lossless and produces exactly the
identity in the left `n` columns, the input times the returned `finalMatrix`
is exactly the `n x n` identity, in particular entrywise within `1e-8`.
Invertibility alone is not sufficient: see
`inverse_roundtrip_counterexample`. -/
theorem inverse_roundtrip_amended (input : Mat) (n : Nat) (hn : 0 < n)
    (hrect : rect input n n)
    (hloss : gjLossless (augmentId input) = true)
    (hid : ∀ i j, i < n → j < n →
      entry (gaussJordan (augmentId input)).result.finalMatrix i j
        = (if i = j then (1 : ℚ) else 0)) :
    matMul input (calculateInverse input).result.finalMatrix = idMat n ∧
    (∀ i j, i < n → j < n →
      |entry (matMul input (calculateInverse input).result.finalMatrix) i j -
        (if i = j then 1 else 0)| < 1 / 10 ^ 8) := by
  have hWrect : rect (augmentId input) n (2 * n) := rect_augmentId hrect
  have hwlen : (augmentId input).length = n := hWrect.1
  have hwrow : ((augmentId input).getD 0 []).length = 2 * n := rect_rowLen hWrect hn
  simp only [gjLossless] at hloss
  rw [Bool.and_eq_true] at hloss
  have hcl : cleanMatrix (augmentId input) = augmentId input := of_decide_eq_true hloss.1
  have hok := hloss.2
  rw [hcl] at hok
  have hfin := gaussJordan_finalMatrix (augmentId input)
  rw [hcl] at hfin
  rw [hwlen, hwrow] at hok hfin
  have hrel : InvRel input (gaussJordan (augmentId input)).result.finalMatrix n := by
    rw [hfin]
    exact gjLoop_rel _ _ _ (invRel_init hrect) hok
  obtain ⟨hWfinrect, hWfinrel⟩ := hrel
  have hidB : invIsIdentity (gaussJordan (augmentId input)).result.finalMatrix input.length
      = true := by
    rw [invIsIdentity_iff]
    intro i hi j hj
    rw [hWfinrect.1] at hi
    have hjn : j < n := by
      rw [rect_rowLen hWfinrect hi, hrect.1] at hj
      omega
    rw [hid i j hi hjn, sub_self, abs_zero]
    exact tol_pos
  have hsq : ¬ input.length ≠ (input.getD 0 []).length := by
    rw [hrect.1, rect_rowLen hrect hn]
    exact fun hh => hh rfl
  have hinv : (calculateInverse input).result.finalMatrix
      = (gaussJordan (augmentId input)).result.finalMatrix.map
          (fun row => row.drop input.length) := by
    simp only [calculateInverse]
    rw [if_neg hsq, if_pos hidB]
  rw [hrect.1] at hinv
  have hBentry : ∀ i t, entry ((gaussJordan (augmentId input)).result.finalMatrix.map
        (fun row => row.drop n)) i t
      = entry (gaussJordan (augmentId input)).result.finalMatrix i (n + t) := by
    intro i t
    show (((gaussJordan (augmentId input)).result.finalMatrix.map
      (fun row => row.drop n)).getD i []).getD t 0 = _
    rw [getD_map_nil _ List.drop_nil _ _, getD_drop]
    rfl
  have hwidth : (((gaussJordan (augmentId input)).result.finalMatrix.map
      (fun row => row.drop n)).getD 0 []).length = n := by
    rw [getD_map_nil _ List.drop_nil _ _, List.length_drop, rect_rowLen hWfinrect hn]
    omega
  have hBA : toMx ((gaussJordan (augmentId input)).result.finalMatrix.map
      (fun row => row.drop n)) n * toMx input n = 1 := by
    ext i j
    rw [Matrix.mul_apply, Matrix.one_apply]
    simp only [toMx, Matrix.of_apply]
    rw [Fin.sum_univ_eq_sum_range
      (fun t => entry ((gaussJordan (augmentId input)).result.finalMatrix.map
        (fun row => row.drop n)) i.val t * entry input t j.val) n, ← list_range_sum]
    have hmap2 : (List.range n).map
        (fun t => entry ((gaussJordan (augmentId input)).result.finalMatrix.map
          (fun row => row.drop n)) i.val t * entry input t j.val)
      = (List.range n).map
        (fun t => entry (gaussJordan (augmentId input)).result.finalMatrix i.val (n + t)
          * entry input t j.val) :=
      List.map_congr_left (fun t _ => by rw [hBentry])
    rw [hmap2, ← hWfinrel i.val j.val i.isLt j.isLt, hid i.val j.val i.isLt j.isLt]
    by_cases hij : i = j
    · rw [if_pos (by rw [hij]), if_pos hij]
    · rw [if_neg (fun hh => hij (Fin.ext hh)), if_neg hij]
  have hAB : toMx input n * toMx ((gaussJordan (augmentId input)).result.finalMatrix.map
      (fun row => row.drop n)) n = 1 := Matrix.mul_eq_one_comm.mpr hBA
  have hgoal1 : matMul input ((gaussJordan (augmentId input)).result.finalMatrix.map
      (fun row => row.drop n)) = idMat n := by
    refine mat_ext ?_ (rect_idMat n) ?_
    · have hrm := rect_matMul input ((gaussJordan (augmentId input)).result.finalMatrix.map
        (fun row => row.drop n))
      rw [hrect.1, hwidth] at hrm
      exact hrm
    · intro i j hi hj
      rw [entry_idMat n i j hi hj,
        entry_matMul input _ i j (by rw [hrect.1]; exact hi) (by rw [hwidth]; exact hj),
        enum_map_sum (fun idx v => v * entry ((gaussJordan
          (augmentId input)).result.finalMatrix.map (fun row => row.drop n)) idx j),
        rect_rowLen hrect hi]
      have hmap3 : (List.range n).map
          (fun t => (input.getD i []).getD t 0
            * entry ((gaussJordan (augmentId input)).result.finalMatrix.map
              (fun row => row.drop n)) t j)
        = (List.range n).map
          (fun t => entry input i t
            * entry ((gaussJordan (augmentId input)).result.finalMatrix.map
              (fun row => row.drop n)) t j) :=
        List.map_congr_left (fun t _ => rfl)
      rw [hmap3]
      have happ := congrFun (congrFun hAB ⟨i, hi⟩) ⟨j, hj⟩
      rw [Matrix.mul_apply, Matrix.one_apply] at happ
      simp only [toMx, Matrix.of_apply] at happ
      rw [Fin.sum_univ_eq_sum_range
        (fun t => entry input i t
          * entry ((gaussJordan (augmentId input)).result.finalMatrix.map
            (fun row => row.drop n)) t j) n, ← list_range_sum] at happ
      rw [happ]
      simp only [Fin.mk.injEq]
  refine ⟨?_, ?_⟩
  · rw [hinv]
    exact hgoal1
  · intro i j hi hj
    rw [hinv, hgoal1, entry_idMat n i j hi hj, sub_self, abs_zero]
    norm_num

set_option maxRecDepth 10000 in
set_option maxHeartbeats 4000000 in
theorem inverse_roundtrip_amended_witness :
    (0 < 2 ∧ rect [[(2 : ℚ), 0], [0, 4]] 2 2 ∧
      gjLossless (augmentId [[(2 : ℚ), 0], [0, 4]]) = true ∧
      (∀ i j, i < 2 → j < 2 →
        entry (gaussJordan (augmentId [[(2 : ℚ), 0], [0, 4]])).result.finalMatrix i j
          = (if i = j then (1 : ℚ) else 0))) ∧
    (matMul [[(2 : ℚ), 0], [0, 4]]
        (calculateInverse [[(2 : ℚ), 0], [0, 4]]).result.finalMatrix = idMat 2 ∧
      (∀ i j, i < 2 → j < 2 →
        |entry (matMul [[(2 : ℚ), 0], [0, 4]]
            (calculateInverse [[(2 : ℚ), 0], [0, 4]]).result.finalMatrix) i j -
          (if i = j then 1 else 0)| < 1 / 10 ^ 8)) := by
  have hfin : (gaussJordan (augmentId [[(2 : ℚ), 0], [0, 4]])).result.finalMatrix
      = [[1, 0, 1 / 2, 0], [0, 1, 0, 1 / 4]] := by
    norm_num [augmentId, gaussJordan, gjLoop, gjFindPivot, gjRowBody, gjElim,
      entry, swapRows, multiplyRow, addRows, addRowsVec, cleanMatrix, cleanNumber, tol,
      abs_div, abs_neg, abs_one, abs_zero, abs_pow, List.range_succ, List.range'_succ,
      List.find?, List.enum, List.enumFrom]
  have hloss : gjLossless (augmentId [[(2 : ℚ), 0], [0, 4]]) = true := by
    norm_num [gjLossless, augmentId, gjLoop, gjFindPivot, gjRowBody, gjElim,
      entry, swapRows, multiplyRow, addRows, addRowsVec, cleanMatrix, cleanNumber, tol,
      abs_div, abs_neg, abs_one, abs_zero, abs_pow, List.range_succ, List.range'_succ,
      List.find?, List.enum, List.enumFrom]
  have hid : ∀ i j, i < 2 → j < 2 →
      entry (gaussJordan (augmentId [[(2 : ℚ), 0], [0, 4]])).result.finalMatrix i j
        = (if i = j then (1 : ℚ) else 0) := by
    intro i j hi hj
    rw [hfin]
    interval_cases i <;> interval_cases j <;> norm_num [entry]
  exact ⟨⟨by norm_num, by simp [rect], hloss, hid⟩,
    inverse_roundtrip_amended [[(2 : ℚ), 0], [0, 4]] 2 (by norm_num) (by simp [rect])
      hloss hid⟩

end MatrixOps
